import Mathlib

/-!
Shallow embedding of the pyash ledger parser and aggregator
(src/pyash/__init__.py), together with proofs about the claims of its
specification.  Python strings are modelled as Lean strings (lists of
characters); `datetime` values as year/month/day triples (all parsed dates
have a zero time-of-day, and for comparisons only the calendar date matters);
`Decimal` values as sign/coefficient/exponent triples with exact (rational)
arithmetic; iterators as lists; exceptions as `Except`.
-/

/-- Python whitespace (the characters stripped by `str.strip()` and split on
by `str.split()`), restricted to ASCII. -/
def isWs (c : Char) : Bool :=
  c == ' ' || c == '\t' || c == '\n' || c == '\r' || c == '\x0b' || c == '\x0c'

/-- ASCII decimal digit test (models `str.isdigit` / the `\d` regex class
on the ASCII inputs the ledger format uses). -/
def digit? (c : Char) : Bool :=
  decide ('0' ≤ c) && decide (c ≤ '9')

/-- Numeric value of a digit character. -/
def digitVal (c : Char) : Nat := c.toNat - 48

/-- Digit character of a value below ten. -/
def digitChar (n : Nat) : Char := Char.ofNat (48 + n)

/-- Big-endian digit string to number (leading zeros are irrelevant),
modelling `int(...)` on a digit string. -/
def digitsToNat (l : List Char) : Nat :=
  l.foldl (fun a c => a * 10 + digitVal c) 0

/-- Decimal digits of a number, big-endian, with explicit fuel so that the
definition is structurally recursive. -/
def nd : Nat → Nat → List Char
  | 0, _ => []
  | f + 1, n => if n < 10 then [digitChar n] else nd f (n / 10) ++ [digitChar (n % 10)]

/-- Decimal representation of a natural number (`"0"` for zero). -/
def natDigs (n : Nat) : List Char := nd (n + 1) n

/-- A run of zero characters. -/
def zeros (n : Nat) : List Char := List.replicate n '0'

/-- Strip Python-style whitespace from both ends (models `str.strip()`). -/
def stripList (l : List Char) : List Char :=
  ((l.dropWhile isWs).reverse.dropWhile isWs).reverse

/-- Strip space characters only from both ends (models `str.strip(' ')`). -/
def stripSpList (l : List Char) : List Char :=
  ((l.dropWhile (· == ' ')).reverse.dropWhile (· == ' ')).reverse

/-- Split at every character satisfying `p`, keeping empty pieces, exactly as
Python `str.split(sep)` does for a one-character separator. -/
def splitP (p : Char → Bool) : List Char → List (List Char)
  | [] => [[]]
  | c :: cs =>
    let r := splitP p cs
    if p c then [] :: r else (c :: r.headD []) :: r.tail

/-- Split on a single character (Python `s.split(c)`). -/
def splitCh (c : Char) (l : List Char) : List (List Char) :=
  splitP (fun x => x == c) l

/-- Join pieces with a single separator character between them (the inverse
of `splitCh`). -/
def joinCh (c : Char) : List (List Char) → List Char
  | [] => []
  | [x] => x
  | x :: y :: t => x ++ c :: joinCh c (y :: t)

/-- Python `str.split()` with no argument: split on whitespace runs,
discarding empty pieces. -/
def splitWs (l : List Char) : List (List Char) :=
  (splitP isWs l).filter (fun x => !x.isEmpty)

/-- List-level `startswith`. -/
def startsL : List Char → List Char → Bool
  | [], _ => true
  | _, [] => false
  | a :: as1, b :: bs1 => a == b && startsL as1 bs1

/-- Substring containment (Python `needle in hay`). -/
def isSubL (n : List Char) : List Char → Bool
  | [] => startsL n []
  | c :: t => startsL n (c :: t) || isSubL n t

/-- ASCII lower-casing of a character list (models `str.lower()` on the
ASCII data the ledger uses). -/
def lowerL (l : List Char) : List Char := l.map Char.toLower

/-- ASCII upper-casing as a string function (models `str.upper()`). -/
def upperS (s : String) : String := String.mk (s.data.map Char.toUpper)

/-- Characters up to (excluding) the first newline: the first line of a
rendered text block. -/
def firstLine (s : String) : String :=
  String.mk (s.data.takeWhile (fun c => !(c == '\n')))

/-- Strip all trailing euro signs (models `str.rstrip('€')`). -/
def rstripEuro (l : List Char) : List Char :=
  (l.reverse.dropWhile (· == '€')).reverse

/-- Whether the first character of the line is in the given set; file lines
are never empty (they always contain at least their newline), so the empty
case is immaterial and returns `false`. Models `line[0] in set`. -/
def headIn (l : List Char) (set : List Char) : Bool :=
  match l with
  | [] => false
  | c :: _ => set.contains c

/-- Models `line[:4].isdigit()`: the first four characters (or all of a
shorter line) are all digits, and there is at least one of them. -/
def isDigit4 (line : String) : Bool :=
  let t := line.data.take 4
  !t.isEmpty && t.all digit?

/-- Python `str.strip()` as a `String` function. -/
def pyStrip (s : String) : String := String.mk (stripList s.data)

/-- Python `str.strip(' ')` as a `String` function. -/
def pyStripSp (s : String) : String := String.mk (stripSpList s.data)

/-- Leading-sign handling of the `Decimal` literal grammar: consume one
optional `-` or `+`, returning whether the value is negative. -/
def splitSign (l : List Char) : Bool × List Char :=
  if l.head? = some '-' then (true, l.tail)
  else if l.head? = some '+' then (false, l.tail)
  else (false, l)

/-- A calendar date as produced by `datetime.strptime(s, '%Y/%m/%d')`
(time-of-day is always midnight and is omitted). -/
structure Date where
  y : Nat
  m : Nat
  d : Nat
deriving DecidableEq, Repr

/-- Gregorian leap-year rule used by `datetime`. -/
def isLeap (y : Nat) : Bool :=
  (y % 4 == 0 && y % 100 != 0) || y % 400 == 0

/-- Days in a month, as validated by `datetime`'s constructor. -/
def daysInMonth (y m : Nat) : Nat :=
  if m = 2 then (if isLeap y then 29 else 28)
  else if m = 4 ∨ m = 6 ∨ m = 9 ∨ m = 11 then 30
  else 31

/-- The `%Y` directive of `strptime`: exactly four digits. -/
def parseYear (l : List Char) : Option Nat :=
  if l.length = 4 ∧ l.all digit? then some (digitsToNat l) else none

/-- The `%m` directive of `strptime`: regex `1[0-2]|0[1-9]|[1-9]`. -/
def parseMonth (l : List Char) : Option Nat :=
  match l with
  | [c] => if digit? c ∧ c ≠ '0' then some (digitVal c) else none
  | [c1, c2] =>
    if (c1 = '1' ∧ (c2 = '0' ∨ c2 = '1' ∨ c2 = '2')) ∨
       (c1 = '0' ∧ digit? c2 ∧ c2 ≠ '0') then
      some (10 * digitVal c1 + digitVal c2)
    else none
  | _ => none

/-- The `%d` directive of `strptime`: regex `3[01]|[12]\d|0[1-9]|[1-9]`. -/
def parseDay (l : List Char) : Option Nat :=
  match l with
  | [c] => if digit? c ∧ c ≠ '0' then some (digitVal c) else none
  | [c1, c2] =>
    if (c1 = '3' ∧ (c2 = '0' ∨ c2 = '1')) ∨
       ((c1 = '1' ∨ c1 = '2') ∧ digit? c2) ∨
       (c1 = '0' ∧ digit? c2 ∧ c2 ≠ '0') then
      some (10 * digitVal c1 + digitVal c2)
    else none
  | _ => none

/-- `datetime.strptime(s, '%Y/%m/%d')`: the three fields separated by
literal slashes, a full match, followed by `datetime`'s own validity check
(year at least `MINYEAR = 1`, day within the month). Returns `none` where
Python raises `ValueError`. -/
def strptimeDate (s : String) : Option Date :=
  match splitCh '/' s.data with
  | [ys, ms, ds] =>
    match parseYear ys, parseMonth ms, parseDay ds with
    | some y, some m, some d =>
      if 1 ≤ y ∧ d ≤ daysInMonth y m then some ⟨y, m, d⟩ else none
    | _, _, _ => none
  | _ => none

/-- Two-digit zero-padded rendering used by `strftime` for `%m` and `%d`. -/
def pad2 (n : Nat) : List Char :=
  if n < 10 then '0' :: natDigs n else natDigs n

/-- `date.strftime('%Y/%m/%d')` on Linux/glibc: `%Y` prints the year as a
plain decimal number (no padding), `%m` and `%d` zero-padded to two. -/
def strftimeDate (dt : Date) : List Char :=
  natDigs dt.y ++ '/' :: pad2 dt.m ++ '/' :: pad2 dt.d

/-- `datetime` comparison restricted to dates (all parsed values share a
zero time-of-day): lexicographic on (year, month, day). -/
def Date.leB (a b : Date) : Bool :=
  decide (a.y < b.y) ||
    (decide (a.y = b.y) &&
      (decide (a.m < b.m) || (decide (a.m = b.m) && decide (a.d ≤ b.d))))

/-- A finite `decimal.Decimal` value: sign, coefficient and exponent.  The
value denoted is `(-1)^sign * coef * 10^exp`.  (`NaN`/`Infinity` literals,
which never occur in ledger data, are outside the model.) -/
structure Dec where
  sign : Bool
  coef : Nat
  exp : Int
deriving DecidableEq, Repr

/-- The exact rational value of a `Decimal` (arithmetic on the ledger's
money amounts is exact; the model ignores context rounding, which only
matters beyond 28 significant digits). -/
def Dec.toRat (d : Dec) : ℚ :=
  (if d.sign then -1 else 1) * (d.coef : ℚ) * (10 : ℚ) ^ d.exp

/-- The part of the `Decimal` literal grammar after the optional leading
sign: digits with an optional fractional part (at least one digit in
total) and an optional exponent. -/
def parseDecCore (sg : Bool) (l1 : List Char) : Option Dec :=
  let ip := l1.takeWhile digit?
  let r1 := l1.drop ip.length
  let fp := if r1.head? = some '.' then r1.tail.takeWhile digit? else []
  let r2 := if r1.head? = some '.' then r1.tail.drop fp.length else r1
  if (ip ++ fp).isEmpty then none
  else
    match r2 with
    | [] => some ⟨sg, digitsToNat (ip ++ fp), -(fp.length : Int)⟩
    | e :: r3 =>
      if e = 'e' ∨ e = 'E' then
        let esg := splitSign r3
        if !(esg.2.isEmpty) && esg.2.all digit? then
          let ev : Int := (if esg.1 then -1 else 1) * (digitsToNat esg.2 : Int)
          some ⟨sg, digitsToNat (ip ++ fp), ev - (fp.length : Int)⟩
        else none
      else none

/-- The `Decimal(str)` constructor on finite numeric literals: optional
sign, digits with an optional fractional part (at least one digit in
total), and an optional exponent; surrounding whitespace is stripped and
underscores removed first.  Returns `none` where Python raises
`InvalidOperation`. -/
def parseDec (s : String) : Option Dec :=
  let l := (stripList s.data).filter (fun c => !(c == '_'))
  let sg := splitSign l
  parseDecCore sg.1 sg.2

/-- `str(Decimal)`: the to-scientific-string conversion of the decimal
specification, as implemented by `_pydecimal.Decimal.__str__` for finite
values. -/
def decToString (d : Dec) : List Char :=
  let ds := natDigs d.coef
  let len : Int := (ds.length : Int)
  let leftd : Int := d.exp + len
  let dot : Int := if d.exp ≤ 0 ∧ leftd > -6 then leftd else 1
  let ipart : List Char :=
    if dot ≤ 0 then ['0']
    else if dot ≥ len then ds ++ zeros (dot - len).toNat
    else ds.take dot.toNat
  let fpart : List Char :=
    if dot ≤ 0 then '.' :: (zeros (-dot).toNat ++ ds)
    else if dot ≥ len then []
    else '.' :: ds.drop dot.toNat
  let esuf : List Char :=
    if leftd = dot then []
    else 'E' :: (if leftd - dot < 0 then '-' :: natDigs (leftd - dot).natAbs
                 else '+' :: natDigs (leftd - dot).natAbs)
  (if d.sign then ['-'] else []) ++ ipart ++ fpart ++ esuf

/-- A parsed transaction record (`class Move` of the source; the dict keys
become fields, `index`/`line_number` the bookkeeping attributes). -/
structure Move where
  index : Nat
  lineNumber : Nat
  date : Date
  amount : Dec
  kind : String
  category : String
  status : String
  description : Option String
  comment : String
deriving DecidableEq, Repr

/-- `Move.__init__`: strip the line, split it on single spaces into exactly
five fields, parse the date with `%Y/%m/%d` and the amount as a `Decimal`
after stripping trailing euro signs.  Returns `none` where Python raises
(wrong field count, bad date, bad decimal). -/
def Move.fromLine (m i : Nat) (line : String) : Option Move :=
  match (splitP (fun c => c == ' ') (stripList line.data)).map String.mk with
  | [d0, a0, k0, c0, s0] =>
    match strptimeDate d0, parseDec (String.mk (rstripEuro a0.data)) with
    | some dt, some q =>
      some ⟨m, i, dt, q, k0, c0, s0, none, ""⟩
    | _, _ => none
  | _ => none

/-- `Move.add`: a non-blank continuation line becomes the description if
none is set yet, otherwise its space-stripped text (trailing newline and
all) is appended to the comment; blank lines are ignored. -/
def Move.add (mv : Move) (line : String) : Move :=
  if pyStrip line ≠ "" then
    match mv.description with
    | none => { mv with description := some (pyStrip line) }
    | some _ => { mv with comment := mv.comment ++ pyStripSp line }
  else mv

/-- The header line of `Move.__str__`'s template:
`<date> <amount>€ <kind> <category> <status>` with the date reformatted by
`strftime('%Y/%m/%d')` and the amount rendered by `str(Decimal)`. -/
def Move.headerLine (mv : Move) : List Char :=
  strftimeDate mv.date ++ ' ' :: (decToString mv.amount ++ '€' :: ' ' ::
    (mv.kind.data ++ ' ' :: (mv.category.data ++ ' ' :: mv.status.data)))

/-- `Move.__str__`: render the Jinja template (header line, then the
description — `None` when absent, as Jinja prints it — then the comment,
each continuation indented by four spaces), strip the result, and append
two newlines. -/
def Move.str (mv : Move) : String :=
  String.mk (stripList (('\n' :: mv.headerLine) ++
    ('\n' :: ' ' :: ' ' :: ' ' :: ' ' ::
      ((match mv.description with
        | none => "None".data
        | some d0 => d0.data) ++
       ('\n' :: ' ' :: ' ' :: ' ' :: ' ' :: mv.comment.data))))) ++ "\n\n"

/-- The configuration a `MovesFile` run resolves from its arguments:
grep pattern (`-g`, empty string when absent), pending-only flag (`-p`),
cleared-only flag (`-x`), resolved start and end dates (`-s`/`-e`, with
their defaults already applied), and the optional period name
(`--period`). -/
structure Config where
  g : String
  p : Bool
  x : Bool
  startDate : Date
  endDate : Date
  period : Option String
deriving Repr

/-- One of the two category balances: an insertion-ordered mapping from
category to accumulated amount, plus the sign coefficient fixed at
construction (`reverse and 1 or -1`). -/
structure Balance where
  entries : List (String × ℚ)
  coef : ℚ
deriving DecidableEq, Repr

/-- `Balance.__init__`. -/
def Balance.init (reverse : Bool) : Balance :=
  ⟨[], if reverse then 1 else -1⟩

/-- `Balance.sum`: the sum of the stored values scaled by the coefficient. -/
def Balance.sum (b : Balance) : ℚ :=
  (b.entries.map Prod.snd).sum * b.coef

/-- Association-list lookup (Python `dict` access / `in` test). -/
def lookupS {α : Type} (k : String) : List (String × α) → Option α
  | [] => none
  | (k', v) :: t => if k' = k then some v else lookupS k t

/-- Python `d[k] = v`: overwrite in place, or append a new key. -/
def setS {α : Type} (l : List (String × α)) (k : String) (v : α) :
    List (String × α) :=
  match l with
  | [] => [(k, v)]
  | (k', v') :: t => if k' = k then (k', v) :: t else (k', v') :: setS t k v

/-- Python `d[k] += v` with a zero default: add to the key in place, or
append it. -/
def bumpQ (l : List (String × ℚ)) (k : String) (v : ℚ) : List (String × ℚ) :=
  match l with
  | [] => [(k, v)]
  | (k', v') :: t => if k' = k then (k', v' + v) :: t else (k', v') :: bumpQ t k v

/-- `Balance` entry accumulation (`balance[category] += amount`, creating
the bucket when new). -/
def Balance.bump (b : Balance) (k : String) (v : ℚ) : Balance :=
  ⟨bumpQ b.entries k v, b.coef⟩

/-- `MovesFile.filter`: reject when a grep pattern is configured and is not
a substring of the lower-cased rendered record; reject on the pending or
cleared flag when the upper-cased status differs from the marker; finally
accept exactly when the date lies in the inclusive configured range.  (Note
the pattern itself is not lower-cased by the code.) -/
def MovesFile.filter (cfg : Config) (mv : Move) : Bool :=
  if cfg.g ≠ "" ∧ ¬(isSubL cfg.g.data (lowerL (Move.str mv).data) = true) then
    false
  else if cfg.p = true ∧ upperS mv.status ≠ "P" then false
  else if cfg.x = true ∧ upperS mv.status ≠ "X" then false
  else Date.leB cfg.startDate mv.date && Date.leB mv.date cfg.endDate

/-- The period-filter state of `MovesFile.iterator`: no period configured
(`periode = None`), still looking for the marker (`periode` a string), or
marker found (`periode is True`). -/
inductive PerSt where
  | noper : PerSt
  | seeking : String → PerSt
  | active : PerSt

/-- The loop body of `MovesFile.iterator`: count every physical line;
while seeking, consume lines until one starts with the marker; once active,
stop at a line starting with `!`; skip lines whose first character is in
`$!#-`; yield everything else with its 1-based line number. -/
def iterGo (st : PerSt) (i : Nat) : List String → List (Nat × String)
  | [] => []
  | l :: ls =>
    match st with
    | .seeking mk0 =>
      if startsL mk0.data l.data then iterGo .active (i + 1) ls
      else iterGo (.seeking mk0) (i + 1) ls
    | .active =>
      if startsL "!".data l.data then []
      else if headIn l.data "$!#-".data then iterGo .active (i + 1) ls
      else (i + 1, l) :: iterGo .active (i + 1) ls
    | .noper =>
      if headIn l.data "$!#-".data then iterGo .noper (i + 1) ls
      else (i + 1, l) :: iterGo .noper (i + 1) ls

/-- `MovesFile.iterator` over the file's lines: a configured non-empty
period name (`args.get('--period')` is truthy) starts the scan in the
seeking state with marker `"-- " ++ name`. -/
def MovesFile.iterator (cfg : Config) (fileLines : List String) :
    List (Nat × String) :=
  iterGo
    (match cfg.period with
     | some p => if p = "" then .noper else .seeking ("-- " ++ p)
     | none => .noper)
    0 fileLines

/-- The account/kind registries built during the parse
(`self.accounts` / `self.kinds`). -/
structure RegSt where
  accounts : List (String × Dec)
  kinds : List (String × String)
deriving DecidableEq, Repr

/-- Parse errors of `MovesFile.parse` (all fatal in Python). -/
inductive PErr where
  /-- The unguarded `next(fd)` at the top of `parse` on an empty iterator:
  under PEP 479 the escaping `StopIteration` becomes a `RuntimeError`. -/
  | emptyIter : PErr
  /-- `Move.__init__` raised (bad header line). -/
  | badMove : PErr
  /-- Account-declaration processing raised (wrong token count or bad
  decimal). -/
  | badDecl : PErr
deriving DecidableEq, Repr

/-- Parse one `++` account-declaration line: whitespace-split tokens after
the leading `++`, exactly three of them; the kind list is the second token
with its first character and last two characters dropped, split on commas;
the amount must parse as a decimal. -/
def MovesFile.parseDecl (line : String) :
    Option (String × List String × Dec) :=
  match (splitWs line.data).drop 1 with
  | [a0, kt, amt] =>
    match parseDec (String.mk amt) with
    | some q =>
      some (String.mk a0,
            ((splitCh ',' ((kt.drop 1).take (kt.length - 3))).map String.mk),
            q)
    | none => none
  | _ => none

/-- Register a declaration: `accounts[account] = amount`, then
`kinds[kind] = account` for every listed kind. -/
def MovesFile.regDecl (st : RegSt) (d0 : String × List String × Dec) : RegSt :=
  ⟨setS st.accounts d0.1 d0.2.2,
   d0.2.1.foldl (fun m k => setS m k d0.1) st.kinds⟩

/-- Emit a closed record when the filter predicate accepts it. -/
def MovesFile.emitIf (cfg : Config) (mv : Move) : List Move :=
  if MovesFile.filter cfg mv then [mv] else []

/-- The `while True` loop of `MovesFile.parse` over the current line and
the remaining iterator output.  `mode = none` is the scanning state;
`mode = some mv` is the inner continuation-accumulation loop over the open
record `mv`.  Mirrors the source exactly, including its quirks: a `++` line
seen while a record is open is treated as a continuation line; when it is
the last line it is additionally re-examined (and registered) after the
record closes; a header line that is the last line of input allocates a
record that is dropped without being emitted. -/
def MovesFile.parseGo (cfg : Config) :
    RegSt → Nat → Option Move → Nat → String → List (Nat × String) →
      Except PErr (List Move × RegSt)
  | st, seq, none, i, line, [] =>
    if startsL "++ ".data line.data then
      match MovesFile.parseDecl line with
      | none => .error .badDecl
      | some d0 => .ok ([], MovesFile.regDecl st d0)
    else if isDigit4 line then
      match Move.fromLine (seq + 1) i line with
      | none => .error .badMove
      | some _ => .ok ([], st)
    else .ok ([], st)
  | st, seq, none, i, line, (i', l') :: r =>
    if startsL "++ ".data line.data then
      match MovesFile.parseDecl line with
      | none => .error .badDecl
      | some d0 =>
        MovesFile.parseGo cfg (MovesFile.regDecl st d0) seq none i' l' r
    else if isDigit4 line then
      match Move.fromLine (seq + 1) i line with
      | none => .error .badMove
      | some mv => MovesFile.parseGo cfg st (seq + 1) (some mv) i' l' r
    else MovesFile.parseGo cfg st seq none i' l' r
  | st, seq, some mv, i, line, [] =>
    if isDigit4 line then
      match Move.fromLine (seq + 1) i line with
      | none => .error .badMove
      | some _ => .ok (MovesFile.emitIf cfg mv, st)
    else if startsL "++ ".data line.data then
      match MovesFile.parseDecl line with
      | none => .error .badDecl
      | some d0 =>
        .ok (MovesFile.emitIf cfg (mv.add line), MovesFile.regDecl st d0)
    else .ok (MovesFile.emitIf cfg (mv.add line), st)
  | st, seq, some mv, i, line, (i', l') :: r =>
    if isDigit4 line then
      match Move.fromLine (seq + 1) i line with
      | none => .error .badMove
      | some mv2 =>
        (MovesFile.parseGo cfg st (seq + 1) (some mv2) i' l' r).map
          (fun p0 => (MovesFile.emitIf cfg mv ++ p0.1, p0.2))
    else MovesFile.parseGo cfg st seq (some (mv.add line)) i' l' r

/-- `sorted(self.parse())` consumed as a list: the first `next(fd)` is not
guarded, so an empty iterator output is a fatal error (PEP 479); otherwise
run the parse loop from the scanning state with empty registries. -/
def MovesFile.parse (cfg : Config) (fileLines : List String) :
    Except PErr (List Move × RegSt) :=
  match MovesFile.iterator cfg fileLines with
  | [] => .error .emptyIter
  | (i, l) :: r => MovesFile.parseGo cfg ⟨[], []⟩ 0 none i l r

/-- Aggregation errors (`MovesFile.__init__`'s loop over the moves). -/
inductive AggErr where
  /-- `raise TypeError('Le type {} est inconnu'...)`: a record kind with no
  declared account, while the registry is non-empty. -/
  | unknownKind : String → AggErr
  /-- `self.accounts[account]` on a missing account (cannot happen for
  registries built by the parser). -/
  | keyError : AggErr
deriving DecidableEq, Repr

/-- The message of the unknown-kind `TypeError`. -/
def aggErrMsg : AggErr → String
  | .unknownKind k => "Le type " ++ k ++ " est inconnu"
  | .keyError => "KeyError"

/-- The per-record body of the aggregation loop in `MovesFile.__init__`:
route the amount into the income balance when positive, else the expense
balance, accumulating by category; when the account registry is non-empty,
the record's kind must be declared (else the unknown-kind error) and the
mapped account's total is adjusted by the amount. -/
def MovesFile.aggGo (hasA : Bool) (kinds : List (String × String))
    (bin bout : Balance) (accts : List (String × ℚ)) :
    List Move → Except AggErr (Balance × Balance × List (String × ℚ))
  | [] => .ok (bin, bout, accts)
  | mv :: t =>
    let amt := mv.amount.toRat
    let bin' := if 0 < amt then bin.bump mv.category amt else bin
    let bout' := if 0 < amt then bout else bout.bump mv.category amt
    if hasA then
      match lookupS mv.kind kinds with
      | some a0 =>
        match lookupS a0 accts with
        | some _ => MovesFile.aggGo hasA kinds bin' bout' (bumpQ accts a0 amt) t
        | none => .error .keyError
      | none => .error (.unknownKind mv.kind)
    else MovesFile.aggGo hasA kinds bin' bout' accts t

/-- The aggregation pass of `MovesFile.__init__` over the emitted records:
fresh income (`reverse=True`, coefficient 1) and expense (coefficient -1)
balances, and the account totals starting from their declared amounts. -/
def MovesFile.aggregate (accounts : List (String × Dec))
    (kinds : List (String × String)) (moves : List Move) :
    Except AggErr (Balance × Balance × List (String × ℚ)) :=
  MovesFile.aggGo (!accounts.isEmpty) kinds (Balance.init true)
    (Balance.init false) (accounts.map (fun p0 => (p0.1, p0.2.toRat))) moves

/-- A physical line of a text file: it contains no newline except possibly
the terminating one, so its stripped form is newline-free. -/
def noInnerNL (line : String) : Prop := '\n' ∉ stripList line.data

/-- Plain concatenation of a list of strings (no separator). -/
def catS : List String → String
  | [] => ""
  | a :: t => a ++ catS t

/-- The positive amounts of a record list, summed (zero for the others). -/
def sumPos (moves : List Move) : ℚ :=
  (moves.map (fun mv =>
    if 0 < mv.amount.toRat then mv.amount.toRat else 0)).sum

/-- The non-positive amounts of a record list, summed (zero for the
others). -/
def sumNonpos (moves : List Move) : ℚ :=
  (moves.map (fun mv =>
    if 0 < mv.amount.toRat then 0 else mv.amount.toRat)).sum

/-- The net amount of a record list. -/
def sumAll (moves : List Move) : ℚ :=
  (moves.map (fun mv => mv.amount.toRat)).sum

/-! ### Concrete example data (inputs for the witnesses below) -/

/-- A configuration with no grep pattern, no status flag and a wide date
range. -/
def cfgEx : Config := ⟨"", false, false, ⟨2020, 1, 1⟩, ⟨2030, 1, 1⟩, none⟩

/-- The same configuration with the grep pattern `FOOD`. -/
def cfgGrep : Config := ⟨"FOOD", false, false, ⟨2020, 1, 1⟩, ⟨2030, 1, 1⟩, none⟩

/-- The same configuration with the grep pattern `food`. -/
def cfgGrepLo : Config := ⟨"food", false, false, ⟨2020, 1, 1⟩, ⟨2030, 1, 1⟩, none⟩

/-- The same configuration with the pending-only flag set. -/
def cfgPend : Config := ⟨"", true, false, ⟨2020, 1, 1⟩, ⟨2030, 1, 1⟩, none⟩

/-- The same configuration with the period name `P1`. -/
def cfgPer : Config := ⟨"", false, false, ⟨2020, 1, 1⟩, ⟨2030, 1, 1⟩, some "P1"⟩

/-- The record parsed from `2021/05/01 10.00€ CB food P`. -/
def mvEx1 : Move :=
  ⟨1, 1, ⟨2021, 5, 1⟩, ⟨false, 1000, -2⟩, "CB", "food", "P", none, ""⟩

/-- The same record after the continuation line `desc`. -/
def mvExDesc : Move :=
  ⟨1, 1, ⟨2021, 5, 1⟩, ⟨false, 1000, -2⟩, "CB", "food", "P", some "desc", ""⟩

/-- The record parsed from `2021/06/01 -5.00€ CB food X`. -/
def mvEx2 : Move :=
  ⟨2, 3, ⟨2021, 6, 1⟩, ⟨true, 500, -2⟩, "CB", "food", "X", none, ""⟩

/-- A record with the undeclared kind `ZZ` and the continuation `x`. -/
def mvExZZ : Move :=
  ⟨1, 2, ⟨2021, 5, 1⟩, ⟨false, 1000, -2⟩, "ZZ", "food", "P", some "x", ""⟩

/-- A record with the lowercase status `p`. -/
def mvExLp : Move :=
  ⟨1, 1, ⟨2021, 5, 1⟩, ⟨false, 1000, -2⟩, "CB", "food", "p", none, ""⟩

/-- A record whose date's year is below 1000 (parsed from
`0056/01/02 10.00€ CB food P`). -/
def mvExY56 : Move :=
  ⟨1, 1, ⟨56, 1, 2⟩, ⟨false, 1000, -2⟩, "CB", "food", "P", none, ""⟩

/-- The registry state after `++ bank (CB,TR) 1000.00`. -/
def stExBank : RegSt :=
  ⟨[("bank", ⟨false, 100000, -2⟩)], [("CB", "bank"), ("T", "bank")]⟩

/-! ### Generic list lemmas -/

theorem dropWhileP_cons_false {p : Char → Bool} {a : Char} {l : List Char}
    (h : p a = false) : (a :: l).dropWhile p = a :: l := by
  simp [List.dropWhile_cons, h]

theorem dropWhileP_all {p : Char → Bool} {l : List Char}
    (h : ∀ c ∈ l, p c = false) : l.dropWhile p = l := by
  cases l with
  | nil => rfl
  | cons a t => exact dropWhileP_cons_false (h a (List.mem_cons_self a t))

theorem dropWhileP_append_all {p : Char → Bool} {A : List Char}
    (B : List Char) (h : ∀ c ∈ A, p c = true) :
    (A ++ B).dropWhile p = B.dropWhile p := by
  induction A with
  | nil => rfl
  | cons a t ih =>
    simp only [List.cons_append, List.dropWhile_cons,
      h a (List.mem_cons_self a t), if_true]
    exact ih (fun c hc => h c (List.mem_cons_of_mem a hc))

theorem dropWhileP_append {p : Char → Bool} (A B : List Char) :
    (A ++ B).dropWhile p =
      if (A.dropWhile p).isEmpty then B.dropWhile p else A.dropWhile p ++ B := by
  induction A with
  | nil => simp
  | cons a t ih =>
    by_cases h : p a = true
    · simpa [List.dropWhile_cons, h] using ih
    · simp [List.dropWhile_cons, h]

theorem takeWhileP_all {p : Char → Bool} {l : List Char}
    (h : ∀ c ∈ l, p c = true) : l.takeWhile p = l := by
  induction l with
  | nil => rfl
  | cons a t ih =>
    simp only [List.takeWhile_cons, h a (List.mem_cons_self a t), if_true]
    exact congrArg (a :: ·) (ih (fun c hc => h c (List.mem_cons_of_mem a hc)))

theorem takeWhileP_cons_false {p : Char → Bool} {b : Char} (B : List Char)
    (h : p b = false) : (b :: B).takeWhile p = [] := by
  simp [List.takeWhile_cons, h]

theorem takeWhileP_append_all {p : Char → Bool} {A : List Char}
    (B : List Char) (h : ∀ c ∈ A, p c = true) :
    (A ++ B).takeWhile p = A ++ B.takeWhile p := by
  induction A with
  | nil => rfl
  | cons a t ih =>
    simp only [List.cons_append, List.takeWhile_cons,
      h a (List.mem_cons_self a t), if_true]
    exact congrArg (a :: ·) (ih (fun c hc => h c (List.mem_cons_of_mem a hc)))

theorem takeWhileP_append_stop {p : Char → Bool} {A : List Char} {b : Char}
    (B : List Char) (hA : ∀ c ∈ A, p c = true) (hb : p b = false) :
    (A ++ b :: B).takeWhile p = A := by
  rw [takeWhileP_append_all (b :: B) hA, takeWhileP_cons_false B hb,
    List.append_nil]

theorem getLastQ_concat {α : Type} (Y : List α) (b : α) :
    (Y ++ [b]).getLast? = some b :=
  List.getLast?_concat Y

theorem getLastQ_append {α : Type} (X : List α) {S : List α} (h : S ≠ []) :
    (X ++ S).getLast? = S.getLast? := by
  obtain ⟨S', b, hS⟩ := List.eq_nil_or_concat S |>.resolve_left h
  rw [hS, List.concat_eq_append, ← List.append_assoc, getLastQ_concat,
    getLastQ_concat]

/-! ### Digit characters and digit strings -/

theorem digit?_digitChar {k : Nat} (h : k < 10) : digit? (digitChar k) = true := by
  interval_cases k <;> decide

theorem digitVal_digitChar {k : Nat} (h : k < 10) : digitVal (digitChar k) = k := by
  interval_cases k <;> decide

theorem digitChar_props {k : Nat} (h : k < 10) :
    isWs (digitChar k) = false ∧ digitChar k ≠ '_' ∧ digitChar k ≠ ' ' ∧
      digitChar k ≠ '\n' ∧ digitChar k ≠ '-' ∧ digitChar k ≠ '+' ∧
      digitChar k ≠ '.' ∧ digitChar k ≠ '€' ∧ digitChar k ≠ '/' ∧
      digitChar k ≠ 'e' ∧ digitChar k ≠ 'E' := by
  interval_cases k <;> exact ⟨rfl, by decide, by decide, by decide, by decide,
    by decide, by decide, by decide, by decide, by decide, by decide⟩

theorem digit?_toNat {c : Char} (h : digit? c = true) :
    48 ≤ c.toNat ∧ c.toNat ≤ 57 := by
  have h1 := (Bool.and_eq_true _ _).mp h
  have h2 : '0' ≤ c := of_decide_eq_true h1.1
  have h3 : c ≤ '9' := of_decide_eq_true h1.2
  exact ⟨h2, h3⟩

theorem digitVal_le_nine {c : Char} (h : digit? c = true) : digitVal c ≤ 9 := by
  have := digit?_toNat h
  unfold digitVal
  omega

theorem nd_mem {f n : Nat} {c : Char} (h : c ∈ nd f n) :
    ∃ k, k < 10 ∧ c = digitChar k := by
  induction f generalizing n with
  | zero => simp [nd] at h
  | succ f ih =>
    rw [nd] at h
    by_cases h10 : n < 10
    · rw [if_pos h10] at h
      simp only [List.mem_singleton] at h
      exact ⟨n, h10, h⟩
    · rw [if_neg h10] at h
      rcases List.mem_append.mp h with h' | h'
      · exact ih h'
      · simp only [List.mem_singleton] at h'
        exact ⟨n % 10, Nat.mod_lt _ (by omega), h'⟩

theorem nd_all_digit {f n : Nat} {c : Char} (h : c ∈ nd f n) : digit? c = true := by
  obtain ⟨k, hk, rfl⟩ := nd_mem h
  exact digit?_digitChar hk

theorem nd_ne_nil {f n : Nat} (h : 0 < f) : nd f n ≠ [] := by
  cases f with
  | zero => omega
  | succ f =>
    rw [nd]
    split
    · simp
    · simp

theorem digitsToNat_append (a b : List Char) :
    digitsToNat (a ++ b) =
      b.foldl (fun a c => a * 10 + digitVal c) (digitsToNat a) := by
  unfold digitsToNat
  rw [List.foldl_append]

theorem nd_val {f n : Nat} (h : n < 10 ^ f) : digitsToNat (nd f n) = n := by
  induction f generalizing n with
  | zero =>
    have : n = 0 := by simpa using h
    simp [nd, digitsToNat, this]
  | succ f ih =>
    rw [nd]
    by_cases h10 : n < 10
    · rw [if_pos h10]
      simp only [digitsToNat, List.foldl_cons, List.foldl_nil]
      rw [digitVal_digitChar h10]
      omega
    · rw [if_neg h10]
      have hdiv : n / 10 < 10 ^ f := by
        rw [Nat.div_lt_iff_lt_mul (by norm_num)]
        calc n < 10 ^ (f + 1) := h
        _ = 10 ^ f * 10 := by ring
      rw [digitsToNat_append, ih hdiv]
      simp only [List.foldl_cons, List.foldl_nil]
      rw [digitVal_digitChar (Nat.mod_lt _ (by omega))]
      omega

theorem natDigs_val (n : Nat) : digitsToNat (natDigs n) = n := by
  unfold natDigs
  exact nd_val (lt_of_lt_of_le (Nat.lt_pow_self (by norm_num) n)
    (Nat.pow_le_pow_right (by norm_num) (Nat.le_succ n)))

theorem natDigs_ne_nil (n : Nat) : natDigs n ≠ [] := nd_ne_nil (Nat.succ_pos n)

theorem natDigs_all_digit {n : Nat} {c : Char} (h : c ∈ natDigs n) :
    digit? c = true := nd_all_digit h

theorem natDigs_mem {n : Nat} {c : Char} (h : c ∈ natDigs n) :
    ∃ k, k < 10 ∧ c = digitChar k := nd_mem h

theorem digitsToNat_cons_zero (l : List Char) :
    digitsToNat ('0' :: l) = digitsToNat l := by
  unfold digitsToNat
  simp only [List.foldl_cons]
  congr 1

theorem digitsToNat_zeros_append (k : Nat) (l : List Char) :
    digitsToNat (zeros k ++ l) = digitsToNat l := by
  induction k with
  | zero => rfl
  | succ k ih =>
    have : zeros (k + 1) = '0' :: zeros k := by
      simp [zeros, List.replicate]
    rw [this, List.cons_append, digitsToNat_cons_zero, ih]

theorem digitsToNat_lt {l : List Char} (h : ∀ c ∈ l, digit? c = true) :
    digitsToNat l < 10 ^ l.length := by
  induction l using List.reverseRecOn with
  | nil => simp [digitsToNat]
  | append_singleton t c ih =>
    rw [digitsToNat_append]
    simp only [List.foldl_cons, List.foldl_nil, List.length_append,
      List.length_singleton]
    have hc : digitVal c ≤ 9 :=
      digitVal_le_nine (h c (List.mem_append_right t (List.mem_singleton_self c)))
    have ht : digitsToNat t < 10 ^ t.length :=
      ih (fun x hx => h x (List.mem_append_left _ hx))
    have : 10 ^ (t.length + 1) = 10 ^ t.length * 10 := by ring
    omega

/-! ### Splitting and joining -/

theorem splitP_ne_nil (p : Char → Bool) (l : List Char) : splitP p l ≠ [] := by
  cases l with
  | nil => simp [splitP]
  | cons a t =>
    simp only [splitP]
    split <;> simp

theorem splitP_cons (p : Char → Bool) (c : Char) (cs : List Char) :
    splitP p (c :: cs) =
      if p c then [] :: splitP p cs
      else (c :: (splitP p cs).headD []) :: (splitP p cs).tail := rfl

theorem splitP_no_sep {p : Char → Bool} {l : List Char}
    (h : ∀ c ∈ l, p c = false) : splitP p l = [l] := by
  induction l with
  | nil => rfl
  | cons a t ih =>
    rw [splitP_cons, if_neg (by simp [h a (List.mem_cons_self a t)]),
      ih (fun c hc => h c (List.mem_cons_of_mem a hc))]
    rfl

theorem splitP_append_sep {p : Char → Bool} {A : List Char} {c : Char}
    (B : List Char) (hA : ∀ x ∈ A, p x = false) (hc : p c = true) :
    splitP p (A ++ c :: B) = A :: splitP p B := by
  induction A with
  | nil => rw [List.nil_append, splitP_cons, if_pos hc]
  | cons a t ih =>
    rw [List.cons_append, splitP_cons,
      if_neg (by simp [hA a (List.mem_cons_self a t)]),
      ih (fun x hx => hA x (List.mem_cons_of_mem a hx))]
    rfl

theorem mem_splitP {p : Char → Bool} :
    ∀ {l x : List Char}, x ∈ splitP p l → ∀ c ∈ x, p c = false := by
  intro l
  induction l with
  | nil =>
    intro x hx c hc
    simp [splitP] at hx
    subst hx
    simp at hc
  | cons a t ih =>
    intro x hx c hc
    rw [splitP_cons] at hx
    obtain ⟨h, t', ht'⟩ := List.exists_cons_of_ne_nil (splitP_ne_nil p t)
    by_cases hpa : p a = true
    · rw [if_pos hpa] at hx
      rcases List.mem_cons.mp hx with h1 | h1
      · subst h1; simp at hc
      · exact ih h1 c hc
    · rw [if_neg hpa] at hx
      rw [ht'] at hx
      simp only [List.headD_cons, List.tail_cons] at hx
      rcases List.mem_cons.mp hx with h1 | h1
      · subst h1
        rcases List.mem_cons.mp hc with h2 | h2
        · subst h2; simpa using hpa
        · exact ih (ht' ▸ List.mem_cons_self h t') c h2
      · exact ih (ht' ▸ List.mem_cons_of_mem h h1) c hc

theorem mem_of_mem_splitP {p : Char → Bool} {c : Char} :
    ∀ {l x : List Char}, x ∈ splitP p l → c ∈ x → c ∈ l := by
  intro l
  induction l with
  | nil =>
    intro x hx hc
    simp [splitP] at hx
    subst hx
    simp at hc
  | cons a t ih =>
    intro x hx hc
    rw [splitP_cons] at hx
    obtain ⟨h, t', ht'⟩ := List.exists_cons_of_ne_nil (splitP_ne_nil p t)
    by_cases hpa : p a = true
    · rw [if_pos hpa] at hx
      rcases List.mem_cons.mp hx with h1 | h1
      · subst h1; simp at hc
      · exact List.mem_cons_of_mem a (ih h1 hc)
    · rw [if_neg hpa] at hx
      rw [ht'] at hx
      simp only [List.headD_cons, List.tail_cons] at hx
      rcases List.mem_cons.mp hx with h1 | h1
      · subst h1
        rcases List.mem_cons.mp hc with h2 | h2
        · subst h2; exact List.mem_cons_self c t
        · exact List.mem_cons_of_mem a
            (ih (ht' ▸ List.mem_cons_self h t') h2)
      · exact List.mem_cons_of_mem a
          (ih (ht' ▸ List.mem_cons_of_mem h h1) hc)

theorem joinCh_cons_cons (c a : Char) (h : List Char) (t : List (List Char)) :
    joinCh c ((a :: h) :: t) = a :: joinCh c (h :: t) := by
  cases t with
  | nil => rfl
  | cons y u => rfl

theorem joinCh_splitCh (c : Char) (l : List Char) :
    joinCh c (splitCh c l) = l := by
  induction l with
  | nil => rfl
  | cons a t ih =>
    unfold splitCh at ih ⊢
    rw [splitP_cons]
    obtain ⟨h, t', ht'⟩ :=
      List.exists_cons_of_ne_nil (splitP_ne_nil (fun x => x == c) t)
    by_cases hac : (a == c) = true
    · rw [if_pos hac, ht']
      have : joinCh c ([] :: h :: t') = c :: joinCh c (h :: t') := by
        simp [joinCh, beq_iff_eq.mp hac]
      rw [this, ← ht', ih, beq_iff_eq.mp hac]
    · rw [if_neg hac, ht']
      simp only [List.headD_cons, List.tail_cons]
      rw [joinCh_cons_cons, ← ht', ih]

/-! ### Stripping -/

theorem stripList_cons_ws {a : Char} {l : List Char} (h : isWs a = true) :
    stripList (a :: l) = stripList l := by
  simp [stripList, List.dropWhile_cons, h]

theorem stripEnd_append (X T : List Char) :
    ((X ++ T).reverse.dropWhile isWs).reverse =
      if (T.reverse.dropWhile isWs).isEmpty
      then (X.reverse.dropWhile isWs).reverse
      else X ++ (T.reverse.dropWhile isWs).reverse := by
  rw [List.reverse_append, List.dropWhile_append]
  split
  · rfl
  · rw [List.reverse_append, List.reverse_reverse]

theorem stripEnd_concat_nws {b : Char} (Y : List Char) (hb : isWs b = false) :
    ((Y ++ [b]).reverse.dropWhile isWs).reverse = Y ++ [b] := by
  rw [List.reverse_append]
  simp only [List.reverse_cons, List.reverse_nil, List.nil_append,
    List.singleton_append]
  rw [dropWhileP_cons_false hb]
  simp

theorem stripEnd_cons_cases (c : Char) (T1 : List Char) :
    ((c :: T1).reverse.dropWhile isWs).reverse = [] ∨
      ∃ Z, ((c :: T1).reverse.dropWhile isWs).reverse = c :: Z := by
  rw [List.reverse_cons, List.dropWhile_append]
  by_cases h : (T1.reverse.dropWhile isWs).isEmpty = true
  · rw [if_pos h]
    by_cases hc : isWs c = true
    · left; simp [List.dropWhile_cons, hc]
    · right
      refine ⟨[], ?_⟩
      rw [dropWhileP_cons_false (by simpa using hc)]
      rfl
  · rw [if_neg h]
    right
    exact ⟨(T1.reverse.dropWhile isWs).reverse,
      by rw [List.reverse_append]; rfl⟩

theorem dropWhile_head_prop {p : Char → Bool} (l : List Char) :
    l.dropWhile p = [] ∨ ∃ b t, l.dropWhile p = b :: t ∧ p b = false := by
  induction l with
  | nil => left; rfl
  | cons a t ih =>
    by_cases h : p a = true
    · rw [List.dropWhile_cons, if_pos h]; exact ih
    · right
      exact ⟨a, t, dropWhileP_cons_false (by simpa using h),
        (by simpa using h)⟩

theorem stripList_concat {m : List Char} (h : stripList m ≠ []) :
    ∃ Y b, stripList m = Y ++ [b] ∧ isWs b = false := by
  unfold stripList at h ⊢
  rcases dropWhile_head_prop ((m.dropWhile isWs).reverse) with h1 | ⟨b, t, h1, h2⟩
  · rw [h1] at h; simp at h
  · rw [h1]
    exact ⟨t.reverse, b, by simp, h2⟩

theorem stripList_eq_self {hc b : Char} (M : List Char)
    (h1 : isWs hc = false) (h2 : isWs b = false) :
    stripList (hc :: (M ++ [b])) = hc :: (M ++ [b]) := by
  unfold stripList
  rw [dropWhileP_cons_false h1]
  have : hc :: (M ++ [b]) = (hc :: M) ++ [b] := by simp
  rw [this, stripEnd_concat_nws (hc :: M) h2]

theorem stripList_all_pred {l : List Char} (h : ∀ c ∈ l, isWs c = false) :
    stripList l = l := by
  unfold stripList
  rw [dropWhileP_all h, dropWhileP_all (fun c hc => h c (List.mem_reverse.mp hc)),
    List.reverse_reverse]

/-! ### Decimal literal round-trip -/

theorem digit?_not_special {c : Char} (h : digit? c = true) :
    isWs c = false ∧ c ≠ '_' ∧ c ≠ ' ' ∧ c ≠ '\n' ∧ c ≠ '-' ∧ c ≠ '+' ∧
      c ≠ '.' ∧ c ≠ '€' ∧ c ≠ 'e' ∧ c ≠ 'E' ∧ c ≠ '/' := by
  obtain ⟨h1, h2⟩ := digit?_toNat h
  refine ⟨?_, ?_, ?_, ?_, ?_, ?_, ?_, ?_, ?_, ?_, ?_⟩
  · unfold isWs
    simp only [Bool.or_eq_false_iff, beq_eq_false_iff_ne, ne_eq]
    refine ⟨⟨⟨⟨⟨?_, ?_⟩, ?_⟩, ?_⟩, ?_⟩, ?_⟩ <;>
      (intro hq; subst hq; revert h1; decide)
  all_goals (intro hq; subst hq; revert h1 h2; decide)

theorem mem_zeros {k : Nat} {c : Char} (h : c ∈ zeros k) : c = '0' := by
  simp only [zeros, List.mem_replicate] at h
  exact h.2

theorem splitSign_neg (r : List Char) : splitSign ('-' :: r) = (true, r) := by
  simp [splitSign]

theorem splitSign_pos (r : List Char) : splitSign ('+' :: r) = (false, r) := by
  simp [splitSign]

theorem splitSign_other {c : Char} (r : List Char) (h1 : c ≠ '-')
    (h2 : c ≠ '+') : splitSign (c :: r) = (false, c :: r) := by
  simp [splitSign, h1, h2]

theorem takeWhile_split {p : Char → Bool} {A B : List Char}
    (hA : ∀ c ∈ A, p c = true)
    (hB : B = [] ∨ ∃ b B', B = b :: B' ∧ p b = false) :
    (A ++ B).takeWhile p = A := by
  rcases hB with rfl | ⟨b, B', rfl, hb⟩
  · rw [List.append_nil]; exact takeWhileP_all hA
  · exact takeWhileP_append_stop B' hA hb

/-- Evaluation of `parseDecCore` on an explicit
`digits [. digits] [E sign digits]` shape. -/
theorem parseDecCore_shape (sgn : Bool) (A F : List Char) (fr : Bool)
    (ex : Option (Bool × List Char))
    (hA : ∀ c ∈ A, digit? c = true) (hAne : A ≠ [])
    (hF : ∀ c ∈ F, digit? c = true) (hfr : fr = false → F = [])
    (hex : ∀ es eds, ex = some (es, eds) →
      (∀ c ∈ eds, digit? c = true) ∧ eds ≠ []) :
    parseDecCore sgn (A ++ ((if fr then '.' :: F else []) ++
        (match ex with
         | none => []
         | some (es, eds) => 'E' :: ((if es then '-' else '+') :: eds)))) =
      some ⟨sgn, digitsToNat (A ++ F),
        (match ex with
         | none => (0 : Int)
         | some (es, eds) =>
           (if es then (-1 : Int) else 1) * (digitsToNat eds : Int)) -
          (F.length : Int)⟩ := by
  obtain ⟨a0, A', rfl⟩ := List.exists_cons_of_ne_nil hAne
  rcases ex with _ | ⟨es, eds⟩
  · simp only
    rw [List.append_nil]
    by_cases h : fr = true
    · rw [if_pos h]
      simp only [List.cons_append]
      have h1 : List.takeWhile digit? (a0 :: (A' ++ '.' :: F)) = a0 :: A' := by
        have h0 := takeWhileP_append_stop F hA (show digit? '.' = false by decide)
        simp only [List.cons_append] at h0
        exact h0
      have h2 : List.drop (a0 :: A').length (a0 :: (A' ++ '.' :: F)) =
          '.' :: F := by
        have h0 := List.drop_left (a0 :: A') ('.' :: F)
        simp only [List.cons_append] at h0
        exact h0
      simp only [parseDecCore]
      rw [h1, h2]
      simp [takeWhileP_all hF, zero_sub]
    · rw [if_neg h, List.append_nil]
      have hF0 : F = [] := hfr (by simpa using h)
      subst hF0
      simp only [List.append_nil]
      simp only [parseDecCore]
      rw [takeWhileP_all hA]
      simp [zero_sub]
  · obtain ⟨he1, he2⟩ := hex es eds rfl
    have heq1 : eds.isEmpty = false := by
      cases eds with
      | nil => exact absurd rfl he2
      | cons e0 et => rfl
    have heq2 : eds.all digit? = true := List.all_eq_true.mpr he1
    simp only
    by_cases h : fr = true
    · rw [if_pos h]
      simp only [List.cons_append]
      have h1 : List.takeWhile digit?
          (a0 :: (A' ++ '.' :: (F ++ 'E' :: ((if es then '-' else '+') :: eds)))) =
          a0 :: A' := by
        have h0 := takeWhileP_append_stop
          (F ++ 'E' :: ((if es then '-' else '+') :: eds)) hA
          (show digit? '.' = false by decide)
        simp only [List.cons_append] at h0
        exact h0
      have h2 : List.drop (a0 :: A').length
          (a0 :: (A' ++ '.' :: (F ++ 'E' :: ((if es then '-' else '+') :: eds)))) =
          '.' :: (F ++ 'E' :: ((if es then '-' else '+') :: eds)) := by
        have h0 := List.drop_left (a0 :: A')
          ('.' :: (F ++ 'E' :: ((if es then '-' else '+') :: eds)))
        simp only [List.cons_append] at h0
        exact h0
      have h3 : List.takeWhile digit?
          (F ++ 'E' :: ((if es then '-' else '+') :: eds)) = F :=
        takeWhileP_append_stop _ hF (by decide)
      have h4 : List.drop F.length
          (F ++ 'E' :: ((if es then '-' else '+') :: eds)) =
          'E' :: ((if es then '-' else '+') :: eds) := List.drop_left _ _
      simp only [parseDecCore]
      rw [h1, h2]
      simp only [List.head?_cons, List.tail_cons, reduceIte]
      rw [h3, h4]
      cases es
      · simp [splitSign_pos, heq1, heq2]
      · simp [splitSign_neg, heq1, heq2]
    · rw [if_neg h, List.nil_append]
      have hF0 : F = [] := hfr (by simpa using h)
      subst hF0
      simp only [List.cons_append]
      have h1 : List.takeWhile digit?
          (a0 :: (A' ++ 'E' :: ((if es then '-' else '+') :: eds))) =
          a0 :: A' := by
        have h0 := takeWhileP_append_stop
          ((if es then '-' else '+') :: eds) hA (show digit? 'E' = false by decide)
        simp only [List.cons_append] at h0
        exact h0
      have h2 : List.drop (a0 :: A').length
          (a0 :: (A' ++ 'E' :: ((if es then '-' else '+') :: eds))) =
          'E' :: ((if es then '-' else '+') :: eds) := by
        have h0 := List.drop_left (a0 :: A')
          ('E' :: ((if es then '-' else '+') :: eds))
        simp only [List.cons_append] at h0
        exact h0
      simp only [parseDecCore]
      rw [h1, h2]
      cases es
      · simp [splitSign_pos, heq1, heq2]
      · simp [splitSign_neg, heq1, heq2]

theorem parseDec_mk {l : List Char}
    (h : ∀ c ∈ l, isWs c = false ∧ c ≠ '_') :
    parseDec (String.mk l) = parseDecCore (splitSign l).1 (splitSign l).2 := by
  unfold parseDec
  have hdata : (String.mk l).data = l := rfl
  rw [hdata, stripList_all_pred (fun c hc => (h c hc).1),
    List.filter_eq_self.mpr (fun c hc => by simpa using (h c hc).2)]

theorem splitSign_sign_core {CORE : List Char} (sg : Bool) (c0 : Char)
    (REST : List Char) (hCORE : CORE = c0 :: REST) (hd : digit? c0 = true) :
    splitSign ((if sg then ['-'] else []) ++ CORE) = (sg, CORE) := by
  obtain ⟨_, _, _, _, hm, hp, _⟩ := digit?_not_special hd
  cases sg
  · rw [if_neg (by simp), List.nil_append, hCORE,
      splitSign_other REST hm hp, ← hCORE]
  · rw [if_pos rfl, List.singleton_append, splitSign_neg]

theorem parseDec_decToString (d : Dec) :
    parseDec (String.mk (decToString d)) = some d := by
  obtain ⟨sg, coef, exp⟩ := d
  have hLnat : 1 ≤ (natDigs coef).length :=
    List.length_pos.mpr (natDigs_ne_nil coef)
  by_cases hP : exp ≤ 0 ∧ exp + ((natDigs coef).length : Int) > -6
  · by_cases h1 : exp + ((natDigs coef).length : Int) ≤ 0
    · -- leading zeros: 0.00…0ddd
      have hk : (((-(exp + ((natDigs coef).length : Int))).toNat : Int)) =
          -(exp + ((natDigs coef).length : Int)) :=
        Int.toNat_of_nonneg (by omega)
      have hshape : decToString ⟨sg, coef, exp⟩ =
          (if sg then ['-'] else []) ++
            ('0' :: ('.' :: (zeros (-(exp + ((natDigs coef).length : Int))).toNat
              ++ natDigs coef))) := by
        simp only [decToString]
        simp only [if_pos hP, if_pos h1, eq_self_iff_true, if_true]
        simp
      have hFdig : ∀ c ∈ zeros (-(exp + ((natDigs coef).length : Int))).toNat
          ++ natDigs coef, digit? c = true := by
        intro c hc
        rcases List.mem_append.mp hc with hc | hc
        · rw [mem_zeros hc]; decide
        · exact natDigs_all_digit hc
      have hchars : ∀ c ∈ decToString ⟨sg, coef, exp⟩,
          isWs c = false ∧ c ≠ '_' := by
        rw [hshape]
        intro c hc
        rcases List.mem_append.mp hc with hc | hc
        · split at hc
          · simp only [List.mem_singleton] at hc
            subst hc
            exact ⟨by decide, by decide⟩
          · simp at hc
        · rcases List.mem_cons.mp hc with rfl | hc
          · exact ⟨by decide, by decide⟩
          · rcases List.mem_cons.mp hc with rfl | hc
            · exact ⟨by decide, by decide⟩
            · obtain ⟨w1, w2, _⟩ := digit?_not_special (hFdig c hc)
              exact ⟨w1, w2⟩
      have hcore : parseDecCore sg
          ('0' :: ('.' :: (zeros (-(exp + ((natDigs coef).length : Int))).toNat
            ++ natDigs coef))) = some ⟨sg, coef, exp⟩ := by
        have hc := parseDecCore_shape sg ['0']
          (zeros (-(exp + ((natDigs coef).length : Int))).toNat ++ natDigs coef)
          true none
          (by intro c hc; simp only [List.mem_singleton] at hc; subst hc; decide)
          (by simp)
          hFdig
          (fun hh => absurd hh (by decide))
          (fun es eds hq => Option.noConfusion hq)
        simp only [if_pos rfl, List.append_nil, List.singleton_append] at hc
        have hcoef : digitsToNat
            ('0' :: (zeros (-(exp + ((natDigs coef).length : Int))).toNat
              ++ natDigs coef)) = coef := by
          rw [digitsToNat_cons_zero, digitsToNat_zeros_append, natDigs_val]
        have hlen : (0 : Int) -
            (((zeros (-(exp + ((natDigs coef).length : Int))).toNat
              ++ natDigs coef).length : Int)) = exp := by
          rw [List.length_append]
          simp only [zeros, List.length_replicate]
          omega
        rw [hcoef, hlen] at hc
        exact hc
      rw [parseDec_mk hchars, hshape,
        splitSign_sign_core sg '0' _ rfl (by decide)]
      exact hcore
    · by_cases h2 : exp = 0
      · -- integer: ddd
        subst h2
        obtain ⟨d0, ds', hds⟩ := List.exists_cons_of_ne_nil (natDigs_ne_nil coef)
        have hd0 : digit? d0 = true :=
          natDigs_all_digit (hds ▸ List.mem_cons_self d0 ds')
        have hge : (0 : Int) + ((natDigs coef).length : Int) ≥
            ((natDigs coef).length : Int) := by omega
        have hz : ((0 : Int) + ((natDigs coef).length : Int) -
            ((natDigs coef).length : Int)).toNat = 0 := by omega
        have hshape : decToString ⟨sg, coef, 0⟩ =
            (if sg then ['-'] else []) ++ natDigs coef := by
          simp only [decToString]
          simp only [if_pos hP, if_neg h1, if_pos hge, hz,
            eq_self_iff_true, if_true]
          simp [zeros]
        have hchars : ∀ c ∈ decToString ⟨sg, coef, 0⟩,
            isWs c = false ∧ c ≠ '_' := by
          rw [hshape]
          intro c hc
          rcases List.mem_append.mp hc with hc | hc
          · split at hc
            · simp only [List.mem_singleton] at hc
              subst hc
              exact ⟨by decide, by decide⟩
            · simp at hc
          · obtain ⟨w1, w2, _⟩ := digit?_not_special (natDigs_all_digit hc)
            exact ⟨w1, w2⟩
        have hcore : parseDecCore sg (natDigs coef) = some ⟨sg, coef, 0⟩ := by
          have hc := parseDecCore_shape sg (natDigs coef) [] false none
            (fun c hc => natDigs_all_digit hc) (natDigs_ne_nil coef)
            (by intro c hc; simp at hc) (fun _ => rfl)
            (fun es eds hq => Option.noConfusion hq)
          simp only [Bool.false_eq_true, if_false, List.append_nil,
            List.length_nil, Nat.cast_zero, sub_zero] at hc
          rw [natDigs_val] at hc
          exact hc
        rw [parseDec_mk hchars, hshape,
          splitSign_sign_core sg d0 ds' hds hd0]
        exact hcore
      · -- digits with an inner point: dd.ddd
        have hj0 : (0 : Int) < exp + ((natDigs coef).length : Int) := by omega
        have hjlen : ((exp + ((natDigs coef).length : Int)).toNat : Int) =
            exp + ((natDigs coef).length : Int) := Int.toNat_of_nonneg (by omega)
        have hjlt : (exp + ((natDigs coef).length : Int)).toNat <
            (natDigs coef).length := by omega
        have hnge : ¬((exp + ((natDigs coef).length : Int)) ≥
            ((natDigs coef).length : Int)) := by omega
        have hshape : decToString ⟨sg, coef, exp⟩ =
            (if sg then ['-'] else []) ++
              (List.take (exp + ((natDigs coef).length : Int)).toNat
                  (natDigs coef) ++
                ('.' :: List.drop (exp + ((natDigs coef).length : Int)).toNat
                  (natDigs coef))) := by
          simp only [decToString]
          simp only [if_pos hP, if_neg h1, if_neg hnge,
            eq_self_iff_true, if_true]
          simp
        have hchars : ∀ c ∈ decToString ⟨sg, coef, exp⟩,
            isWs c = false ∧ c ≠ '_' := by
          rw [hshape]
          intro c hc
          rcases List.mem_append.mp hc with hc | hc
          · split at hc
            · simp only [List.mem_singleton] at hc
              subst hc
              exact ⟨by decide, by decide⟩
            · simp at hc
          · rcases List.mem_append.mp hc with hc | hc
            · obtain ⟨w1, w2, _⟩ := digit?_not_special
                (natDigs_all_digit (List.mem_of_mem_take hc))
              exact ⟨w1, w2⟩
            · rcases List.mem_cons.mp hc with rfl | hc
              · exact ⟨by decide, by decide⟩
              · obtain ⟨w1, w2, _⟩ := digit?_not_special
                  (natDigs_all_digit (List.mem_of_mem_drop hc))
                exact ⟨w1, w2⟩
        obtain ⟨d0, ds', hds⟩ := List.exists_cons_of_ne_nil (natDigs_ne_nil coef)
        have hd0 : digit? d0 = true :=
          natDigs_all_digit (hds ▸ List.mem_cons_self d0 ds')
        obtain ⟨j', hj'⟩ : ∃ j',
            (exp + ((natDigs coef).length : Int)).toNat = j' + 1 :=
          ⟨(exp + ((natDigs coef).length : Int)).toNat - 1, by omega⟩
        have hTake : List.take (exp + ((natDigs coef).length : Int)).toNat
            (natDigs coef) = d0 :: List.take j' ds' := by
          rw [hj', hds, List.take_succ_cons]
        have hcore : parseDecCore sg
            (List.take (exp + ((natDigs coef).length : Int)).toNat
                (natDigs coef) ++
              ('.' :: List.drop (exp + ((natDigs coef).length : Int)).toNat
                (natDigs coef))) = some ⟨sg, coef, exp⟩ := by
          have hc := parseDecCore_shape sg
            (List.take (exp + ((natDigs coef).length : Int)).toNat (natDigs coef))
            (List.drop (exp + ((natDigs coef).length : Int)).toNat (natDigs coef))
            true none
            (fun c hc => natDigs_all_digit (List.mem_of_mem_take hc))
            (by rw [hTake]; simp)
            (fun c hc => natDigs_all_digit (List.mem_of_mem_drop hc))
            (fun hh => absurd hh (by decide))
            (fun es eds hq => Option.noConfusion hq)
          simp only [if_pos rfl, List.append_nil] at hc
          rw [List.take_append_drop, natDigs_val] at hc
          have hlen : (0 : Int) -
              ((List.drop (exp + ((natDigs coef).length : Int)).toNat
                (natDigs coef)).length : Int) = exp := by
            rw [List.length_drop]
            omega
          rw [hlen] at hc
          exact hc
        rw [parseDec_mk hchars, hshape]
        rw [splitSign_sign_core sg d0
          (List.take j' ds' ++
            ('.' :: List.drop (exp + ((natDigs coef).length : Int)).toNat
              (natDigs coef)))
          (by rw [hTake, List.cons_append]) hd0]
        exact hcore
  · -- scientific notation: d[.ddd]E±k
    have hP' := hP
    push_neg at hP'
    have hne : ¬(exp + ((natDigs coef).length : Int) = 1) := by
      by_cases hx : exp ≤ 0
      · have := hP' hx; omega
      · omega
    have h10 : ¬((1 : Int) ≤ 0) := by omega
    have hEdig : ∀ c ∈ natDigs (exp + ((natDigs coef).length : Int) - 1).natAbs,
        digit? c = true := fun c hc => natDigs_all_digit hc
    have hEne : natDigs (exp + ((natDigs coef).length : Int) - 1).natAbs ≠ [] :=
      natDigs_ne_nil _
    obtain ⟨d0, ds', hds⟩ := List.exists_cons_of_ne_nil (natDigs_ne_nil coef)
    have hd0 : digit? d0 = true :=
      natDigs_all_digit (hds ▸ List.mem_cons_self d0 ds')
    have hchars2 : ∀ (sch : Char), sch = '-' ∨ sch = '+' →
        ∀ c ∈ (if sg then ['-'] else []) ++
          (natDigs coef ++
            ('.' :: List.drop 1 (natDigs coef) ++
              ('E' :: (sch ::
                natDigs (exp + ((natDigs coef).length : Int) - 1).natAbs)))),
        True := fun _ _ _ _ => trivial
    clear hchars2
    by_cases hneg : exp + ((natDigs coef).length : Int) - 1 < 0
    · by_cases hL1 : (natDigs coef).length = 1
      · -- one digit, negative exponent suffix
        have hge : (1 : Int) ≥ ((natDigs coef).length : Int) := by omega
        have hz : ((1 : Int) - ((natDigs coef).length : Int)).toNat = 0 := by
          omega
        have hshape : decToString ⟨sg, coef, exp⟩ =
            (if sg then ['-'] else []) ++
              (natDigs coef ++ ('E' :: ('-' ::
                natDigs (exp + ((natDigs coef).length : Int) - 1).natAbs))) := by
          simp only [decToString]
          simp only [if_neg hP, if_neg h10, if_pos hge, hz, if_neg hne,
            if_pos hneg]
          simp [zeros]
        have hchars : ∀ c ∈ decToString ⟨sg, coef, exp⟩,
            isWs c = false ∧ c ≠ '_' := by
          rw [hshape]
          intro c hc
          rcases List.mem_append.mp hc with hc | hc
          · split at hc
            · simp only [List.mem_singleton] at hc
              subst hc
              exact ⟨by decide, by decide⟩
            · simp at hc
          · rcases List.mem_append.mp hc with hc | hc
            · obtain ⟨w1, w2, _⟩ := digit?_not_special (natDigs_all_digit hc)
              exact ⟨w1, w2⟩
            · rcases List.mem_cons.mp hc with rfl | hc
              · exact ⟨by decide, by decide⟩
              · rcases List.mem_cons.mp hc with rfl | hc
                · exact ⟨by decide, by decide⟩
                · obtain ⟨w1, w2, _⟩ := digit?_not_special (hEdig c hc)
                  exact ⟨w1, w2⟩
        have hcore : parseDecCore sg
            (natDigs coef ++ ('E' :: ('-' ::
              natDigs (exp + ((natDigs coef).length : Int) - 1).natAbs))) =
            some ⟨sg, coef, exp⟩ := by
          have hc := parseDecCore_shape sg (natDigs coef) [] false
            (some (true,
              natDigs (exp + ((natDigs coef).length : Int) - 1).natAbs))
            (fun c hc => natDigs_all_digit hc) (natDigs_ne_nil coef)
            (by intro c hc; simp at hc) (fun _ => rfl)
            (by intro es eds hq
                injection hq with hq1
                injection hq1 with hq2 hq3
                subst hq3
                exact ⟨hEdig, hEne⟩)
          simp only [Bool.false_eq_true, if_false, eq_self_iff_true, if_true,
            List.append_nil, List.nil_append, List.length_nil, Nat.cast_zero,
            sub_zero] at hc
          rw [natDigs_val, natDigs_val] at hc
          have hval : (-1 : Int) *
              ((exp + ((natDigs coef).length : Int) - 1).natAbs : Int) = exp := by
            omega
          rw [hval] at hc
          exact hc
        rw [parseDec_mk hchars, hshape]
        rw [splitSign_sign_core sg d0
          (ds' ++ ('E' :: ('-' ::
            natDigs (exp + ((natDigs coef).length : Int) - 1).natAbs)))
          (by rw [hds, List.cons_append]) hd0]
        exact hcore
      · -- several digits, negative exponent suffix
        have hnge : ¬((1 : Int) ≥ ((natDigs coef).length : Int)) := by omega
        have hshape : decToString ⟨sg, coef, exp⟩ =
            (if sg then ['-'] else []) ++
              (List.take 1 (natDigs coef) ++
                ('.' :: (List.drop 1 (natDigs coef) ++ ('E' :: ('-' ::
                  natDigs (exp + ((natDigs coef).length : Int) - 1).natAbs))))) := by
          simp only [decToString]
          simp only [if_neg hP, if_neg h10, if_neg hnge, if_neg hne,
            if_pos hneg]
          have : ((1 : Int)).toNat = 1 := rfl
          rw [this]
          simp
        have hchars : ∀ c ∈ decToString ⟨sg, coef, exp⟩,
            isWs c = false ∧ c ≠ '_' := by
          rw [hshape]
          intro c hc
          rcases List.mem_append.mp hc with hc | hc
          · split at hc
            · simp only [List.mem_singleton] at hc
              subst hc
              exact ⟨by decide, by decide⟩
            · simp at hc
          · rcases List.mem_append.mp hc with hc | hc
            · obtain ⟨w1, w2, _⟩ := digit?_not_special
                (natDigs_all_digit (List.mem_of_mem_take hc))
              exact ⟨w1, w2⟩
            · rcases List.mem_cons.mp hc with rfl | hc
              · exact ⟨by decide, by decide⟩
              · rcases List.mem_append.mp hc with hc | hc
                · obtain ⟨w1, w2, _⟩ := digit?_not_special
                    (natDigs_all_digit (List.mem_of_mem_drop hc))
                  exact ⟨w1, w2⟩
                · rcases List.mem_cons.mp hc with rfl | hc
                  · exact ⟨by decide, by decide⟩
                  · rcases List.mem_cons.mp hc with rfl | hc
                    · exact ⟨by decide, by decide⟩
                    · obtain ⟨w1, w2, _⟩ := digit?_not_special (hEdig c hc)
                      exact ⟨w1, w2⟩
        have hTake : List.take 1 (natDigs coef) = [d0] := by
          rw [hds]
          rfl
        have hcore : parseDecCore sg
            (List.take 1 (natDigs coef) ++
              ('.' :: (List.drop 1 (natDigs coef) ++ ('E' :: ('-' ::
                natDigs (exp + ((natDigs coef).length : Int) - 1).natAbs))))) =
            some ⟨sg, coef, exp⟩ := by
          have hc := parseDecCore_shape sg (List.take 1 (natDigs coef))
            (List.drop 1 (natDigs coef)) true
            (some (true,
              natDigs (exp + ((natDigs coef).length : Int) - 1).natAbs))
            (fun c hc => natDigs_all_digit (List.mem_of_mem_take hc))
            (by rw [hTake]; simp)
            (fun c hc => natDigs_all_digit (List.mem_of_mem_drop hc))
            (fun hh => absurd hh (by decide))
            (by intro es eds hq
                injection hq with hq1
                injection hq1 with hq2 hq3
                subst hq3
                exact ⟨hEdig, hEne⟩)
          simp only [eq_self_iff_true, if_true, List.cons_append,
            List.append_assoc] at hc
          rw [List.take_append_drop, natDigs_val, natDigs_val] at hc
          have hval : (-1 : Int) *
              ((exp + ((natDigs coef).length : Int) - 1).natAbs : Int) -
                ((List.drop 1 (natDigs coef)).length : Int) = exp := by
            rw [List.length_drop]
            omega
          rw [hval] at hc
          rw [← hc]
        rw [parseDec_mk hchars, hshape]
        rw [splitSign_sign_core sg d0
          (List.take 0 ds' ++
            ('.' :: (List.drop 1 (natDigs coef) ++ ('E' :: ('-' ::
              natDigs (exp + ((natDigs coef).length : Int) - 1).natAbs)))))
          (by rw [hds, List.take_succ_cons, List.cons_append]) hd0]
        exact hcore
    · by_cases hL1 : (natDigs coef).length = 1
      · -- one digit, positive exponent suffix
        have hge : (1 : Int) ≥ ((natDigs coef).length : Int) := by omega
        have hz : ((1 : Int) - ((natDigs coef).length : Int)).toNat = 0 := by
          omega
        have hshape : decToString ⟨sg, coef, exp⟩ =
            (if sg then ['-'] else []) ++
              (natDigs coef ++ ('E' :: ('+' ::
                natDigs (exp + ((natDigs coef).length : Int) - 1).natAbs))) := by
          simp only [decToString]
          simp only [if_neg hP, if_neg h10, if_pos hge, hz, if_neg hne,
            if_neg hneg]
          simp [zeros]
        have hchars : ∀ c ∈ decToString ⟨sg, coef, exp⟩,
            isWs c = false ∧ c ≠ '_' := by
          rw [hshape]
          intro c hc
          rcases List.mem_append.mp hc with hc | hc
          · split at hc
            · simp only [List.mem_singleton] at hc
              subst hc
              exact ⟨by decide, by decide⟩
            · simp at hc
          · rcases List.mem_append.mp hc with hc | hc
            · obtain ⟨w1, w2, _⟩ := digit?_not_special (natDigs_all_digit hc)
              exact ⟨w1, w2⟩
            · rcases List.mem_cons.mp hc with rfl | hc
              · exact ⟨by decide, by decide⟩
              · rcases List.mem_cons.mp hc with rfl | hc
                · exact ⟨by decide, by decide⟩
                · obtain ⟨w1, w2, _⟩ := digit?_not_special (hEdig c hc)
                  exact ⟨w1, w2⟩
        have hcore : parseDecCore sg
            (natDigs coef ++ ('E' :: ('+' ::
              natDigs (exp + ((natDigs coef).length : Int) - 1).natAbs))) =
            some ⟨sg, coef, exp⟩ := by
          have hc := parseDecCore_shape sg (natDigs coef) [] false
            (some (false,
              natDigs (exp + ((natDigs coef).length : Int) - 1).natAbs))
            (fun c hc => natDigs_all_digit hc) (natDigs_ne_nil coef)
            (by intro c hc; simp at hc) (fun _ => rfl)
            (by intro es eds hq
                injection hq with hq1
                injection hq1 with hq2 hq3
                subst hq3
                exact ⟨hEdig, hEne⟩)
          simp only [Bool.false_eq_true, if_false, List.append_nil,
            List.nil_append, List.length_nil, Nat.cast_zero, sub_zero] at hc
          rw [natDigs_val, natDigs_val] at hc
          have hval : (1 : Int) *
              ((exp + ((natDigs coef).length : Int) - 1).natAbs : Int) = exp := by
            omega
          rw [hval] at hc
          exact hc
        rw [parseDec_mk hchars, hshape]
        rw [splitSign_sign_core sg d0
          (ds' ++ ('E' :: ('+' ::
            natDigs (exp + ((natDigs coef).length : Int) - 1).natAbs)))
          (by rw [hds, List.cons_append]) hd0]
        exact hcore
      · -- several digits, positive exponent suffix
        have hnge : ¬((1 : Int) ≥ ((natDigs coef).length : Int)) := by omega
        have hshape : decToString ⟨sg, coef, exp⟩ =
            (if sg then ['-'] else []) ++
              (List.take 1 (natDigs coef) ++
                ('.' :: (List.drop 1 (natDigs coef) ++ ('E' :: ('+' ::
                  natDigs (exp + ((natDigs coef).length : Int) - 1).natAbs))))) := by
          simp only [decToString]
          simp only [if_neg hP, if_neg h10, if_neg hnge, if_neg hne,
            if_neg hneg]
          have : ((1 : Int)).toNat = 1 := rfl
          rw [this]
          simp
        have hchars : ∀ c ∈ decToString ⟨sg, coef, exp⟩,
            isWs c = false ∧ c ≠ '_' := by
          rw [hshape]
          intro c hc
          rcases List.mem_append.mp hc with hc | hc
          · split at hc
            · simp only [List.mem_singleton] at hc
              subst hc
              exact ⟨by decide, by decide⟩
            · simp at hc
          · rcases List.mem_append.mp hc with hc | hc
            · obtain ⟨w1, w2, _⟩ := digit?_not_special
                (natDigs_all_digit (List.mem_of_mem_take hc))
              exact ⟨w1, w2⟩
            · rcases List.mem_cons.mp hc with rfl | hc
              · exact ⟨by decide, by decide⟩
              · rcases List.mem_append.mp hc with hc | hc
                · obtain ⟨w1, w2, _⟩ := digit?_not_special
                    (natDigs_all_digit (List.mem_of_mem_drop hc))
                  exact ⟨w1, w2⟩
                · rcases List.mem_cons.mp hc with rfl | hc
                  · exact ⟨by decide, by decide⟩
                  · rcases List.mem_cons.mp hc with rfl | hc
                    · exact ⟨by decide, by decide⟩
                    · obtain ⟨w1, w2, _⟩ := digit?_not_special (hEdig c hc)
                      exact ⟨w1, w2⟩
        have hTake : List.take 1 (natDigs coef) = [d0] := by
          rw [hds]
          rfl
        have hcore : parseDecCore sg
            (List.take 1 (natDigs coef) ++
              ('.' :: (List.drop 1 (natDigs coef) ++ ('E' :: ('+' ::
                natDigs (exp + ((natDigs coef).length : Int) - 1).natAbs))))) =
            some ⟨sg, coef, exp⟩ := by
          have hc := parseDecCore_shape sg (List.take 1 (natDigs coef))
            (List.drop 1 (natDigs coef)) true
            (some (false,
              natDigs (exp + ((natDigs coef).length : Int) - 1).natAbs))
            (fun c hc => natDigs_all_digit (List.mem_of_mem_take hc))
            (by rw [hTake]; simp)
            (fun c hc => natDigs_all_digit (List.mem_of_mem_drop hc))
            (fun hh => absurd hh (by decide))
            (by intro es eds hq
                injection hq with hq1
                injection hq1 with hq2 hq3
                subst hq3
                exact ⟨hEdig, hEne⟩)
          simp only [Bool.false_eq_true, if_false, eq_self_iff_true, if_true,
            List.cons_append, List.append_assoc] at hc
          rw [List.take_append_drop, natDigs_val, natDigs_val] at hc
          have hval : (1 : Int) *
              ((exp + ((natDigs coef).length : Int) - 1).natAbs : Int) -
                ((List.drop 1 (natDigs coef)).length : Int) = exp := by
            rw [List.length_drop]
            omega
          rw [hval] at hc
          rw [← hc]
        rw [parseDec_mk hchars, hshape]
        rw [splitSign_sign_core sg d0
          (List.take 0 ds' ++
            ('.' :: (List.drop 1 (natDigs coef) ++ ('E' :: ('+' ::
              natDigs (exp + ((natDigs coef).length : Int) - 1).natAbs)))))
          (by rw [hds, List.take_succ_cons, List.cons_append]) hd0]
        exact hcore

/-! ### Date round-trip -/

theorem nd4 (f y : Nat) (h1 : 1000 ≤ y) (h2 : y ≤ 9999) :
    nd (f + 4) y = [digitChar (y / 1000), digitChar (y / 100 % 10),
      digitChar (y / 10 % 10), digitChar (y % 10)] := by
  have e1 : ¬y < 10 := by omega
  rw [show f + 4 = (f + 3) + 1 from rfl, nd, if_neg e1]
  have e2 : ¬y / 10 < 10 := by omega
  rw [show f + 3 = (f + 2) + 1 from rfl, nd, if_neg e2]
  have e3 : ¬y / 10 / 10 < 10 := by omega
  rw [show f + 2 = (f + 1) + 1 from rfl, nd, if_neg e3]
  have e4 : y / 10 / 10 / 10 < 10 := by omega
  rw [nd, if_pos e4]
  have d2 : y / 10 / 10 / 10 = y / 1000 := by omega
  have d1 : y / 10 / 10 = y / 100 := by omega
  rw [d2, d1]
  simp

theorem natDigs_year {y : Nat} (h1 : 1000 ≤ y) (h2 : y ≤ 9999) :
    natDigs y = [digitChar (y / 1000), digitChar (y / 100 % 10),
      digitChar (y / 10 % 10), digitChar (y % 10)] := by
  unfold natDigs
  rw [show y + 1 = (y - 3) + 4 from by omega]
  exact nd4 (y - 3) y h1 h2

theorem parseYear_year {y : Nat} (h1 : 1000 ≤ y) (h2 : y ≤ 9999) :
    parseYear (natDigs y) = some y := by
  rw [natDigs_year h1 h2]
  unfold parseYear
  rw [if_pos]
  · congr 1
    simp only [digitsToNat, List.foldl_cons, List.foldl_nil]
    rw [digitVal_digitChar (by omega), digitVal_digitChar (by omega),
      digitVal_digitChar (by omega), digitVal_digitChar (by omega)]
    omega
  · refine ⟨rfl, ?_⟩
    simp only [List.all_cons, List.all_nil, Bool.and_true]
    rw [digit?_digitChar (by omega), digit?_digitChar (by omega),
      digit?_digitChar (by omega), digit?_digitChar (by omega)]
    rfl

theorem parseMonth_pad2 {m : Nat} (h1 : 1 ≤ m) (h2 : m ≤ 12) :
    parseMonth (pad2 m) = some m := by
  interval_cases m <;> decide

theorem parseDay_pad2 {d : Nat} (h1 : 1 ≤ d) (h2 : d ≤ 31) :
    parseDay (pad2 d) = some d := by
  interval_cases d <;> decide

theorem pad2_no_slash {n : Nat} {c : Char} (h : c ∈ pad2 n) :
    ((c == '/') : Bool) = false := by
  unfold pad2 at h
  split at h
  · rcases List.mem_cons.mp h with rfl | h
    · decide
    · obtain ⟨k, hk, rfl⟩ := natDigs_mem h
      simpa using (digitChar_props hk).2.2.2.2.2.2.2.2.1
  · obtain ⟨k, hk, rfl⟩ := natDigs_mem h
    simpa using (digitChar_props hk).2.2.2.2.2.2.2.2.1

theorem natDigs_no_slash {n : Nat} {c : Char} (h : c ∈ natDigs n) :
    ((c == '/') : Bool) = false := by
  obtain ⟨k, hk, rfl⟩ := natDigs_mem h
  simpa using (digitChar_props hk).2.2.2.2.2.2.2.2.1

theorem splitCh_strftime (dt : Date) :
    splitCh '/' (strftimeDate dt) = [natDigs dt.y, pad2 dt.m, pad2 dt.d] := by
  unfold strftimeDate splitCh
  rw [List.append_assoc, List.cons_append]
  rw [splitP_append_sep (pad2 dt.m ++ '/' :: pad2 dt.d)
    (fun x hx => natDigs_no_slash hx) (by decide)]
  rw [splitP_append_sep (pad2 dt.d) (fun x hx => pad2_no_slash hx) (by decide)]
  rw [splitP_no_sep (fun x hx => pad2_no_slash hx)]

theorem strptime_strftime (dt : Date) (hy1 : 1000 ≤ dt.y) (hy2 : dt.y ≤ 9999)
    (hm1 : 1 ≤ dt.m) (hm2 : dt.m ≤ 12) (hd1 : 1 ≤ dt.d) (hd2 : dt.d ≤ 31)
    (hval : dt.d ≤ daysInMonth dt.y dt.m) :
    strptimeDate (String.mk (strftimeDate dt)) = some dt := by
  unfold strptimeDate
  rw [show (String.mk (strftimeDate dt)).data = strftimeDate dt from rfl]
  rw [splitCh_strftime dt]
  simp only
  rw [parseYear_year hy1 hy2, parseMonth_pad2 hm1 hm2, parseDay_pad2 hd1 hd2]
  simp only
  rw [if_pos ⟨by omega, hval⟩]

/-! ### Header line analysis -/

theorem mem_digzeros {n k : Nat} {c : Char} (h : c ∈ natDigs n ++ zeros k) :
    digit? c = true := by
  rcases List.mem_append.mp h with h | h
  · exact natDigs_all_digit h
  · rw [mem_zeros h]; decide

theorem mem_zerosdig {n k : Nat} {c : Char} (h : c ∈ zeros k ++ natDigs n) :
    digit? c = true := by
  rcases List.mem_append.mp h with h | h
  · rw [mem_zeros h]; decide
  · exact natDigs_all_digit h

theorem decToString_class {d : Dec} {c : Char} (h : c ∈ decToString d) :
    digit? c = true ∨ c = '-' ∨ c = '+' ∨ c = '.' ∨ c = 'E' := by
  unfold decToString at h
  simp only [List.append_assoc, List.mem_append, or_assoc] at h
  rcases h with h | h | h | h
  · split at h
    · simp only [List.mem_singleton] at h
      exact Or.inr (Or.inl h)
    · simp at h
  · repeat' split at h
    all_goals
      first
        | exact absurd h (List.not_mem_nil c)
        | (simp only [List.mem_singleton] at h; subst h; exact Or.inl (by decide))
        | exact Or.inl (mem_digzeros h)
        | exact Or.inl (natDigs_all_digit (List.mem_of_mem_take h))
  · repeat' split at h
    all_goals
      first
        | exact absurd h (List.not_mem_nil c)
        | (rcases List.mem_cons.mp h with rfl | h9
           <;> first
             | exact Or.inr (Or.inr (Or.inr (Or.inl rfl)))
             | exact Or.inl (mem_zerosdig h9)
             | exact Or.inl (natDigs_all_digit (List.mem_of_mem_drop h9)))
  · repeat' split at h
    all_goals
      first
        | exact absurd h (List.not_mem_nil c)
        | (rcases List.mem_cons.mp h with rfl | h9
           · exact Or.inr (Or.inr (Or.inr (Or.inr rfl)))
           · rcases List.mem_cons.mp h9 with rfl | h9
             <;> first
               | exact Or.inr (Or.inl rfl)
               | exact Or.inr (Or.inr (Or.inl rfl))
               | exact Or.inl (natDigs_all_digit h9))

theorem decToString_no_space {d : Dec} {c : Char} (h : c ∈ decToString d) :
    ((c == ' ') : Bool) = false := by
  rcases decToString_class h with h | rfl | rfl | rfl | rfl
  · simpa using (digit?_not_special h).2.2.1
  all_goals decide

theorem decToString_no_nl {d : Dec} {c : Char} (h : c ∈ decToString d) :
    ((c == '\n') : Bool) = false := by
  rcases decToString_class h with h | rfl | rfl | rfl | rfl
  · simpa using (digit?_not_special h).2.2.2.1
  all_goals decide

theorem decToString_no_euro {d : Dec} {c : Char} (h : c ∈ decToString d) :
    ((c == '€') : Bool) = false := by
  rcases decToString_class h with h | rfl | rfl | rfl | rfl
  · simpa using (digit?_not_special h).2.2.2.2.2.2.2.1
  all_goals decide

theorem strftime_class {dt : Date} {c : Char} (h : c ∈ strftimeDate dt) :
    digit? c = true ∨ c = '/' := by
  have hpad : ∀ n, ∀ x ∈ pad2 n, digit? x = true := by
    intro n x hx
    unfold pad2 at hx
    split at hx
    · rcases List.mem_cons.mp hx with rfl | hx
      · decide
      · exact natDigs_all_digit hx
    · exact natDigs_all_digit hx
  unfold strftimeDate at h
  simp only [List.append_assoc, List.cons_append, List.mem_append,
    List.mem_cons, or_assoc] at h
  rcases h with h | rfl | h | rfl | h
  · exact Or.inl (natDigs_all_digit h)
  · exact Or.inr rfl
  · exact Or.inl (hpad _ c h)
  · exact Or.inr rfl
  · exact Or.inl (hpad _ c h)

theorem strftime_no_space {dt : Date} {c : Char} (h : c ∈ strftimeDate dt) :
    ((c == ' ') : Bool) = false := by
  rcases strftime_class h with h | rfl
  · simpa using (digit?_not_special h).2.2.1
  · decide

theorem strftime_no_nl {dt : Date} {c : Char} (h : c ∈ strftimeDate dt) :
    ((c == '\n') : Bool) = false := by
  rcases strftime_class h with h | rfl
  · simpa using (digit?_not_special h).2.2.2.1
  · decide

theorem rstripEuro_dec (d : Dec) :
    rstripEuro (decToString d ++ ['€']) = decToString d := by
  unfold rstripEuro
  rw [List.reverse_append]
  simp only [List.reverse_cons, List.reverse_nil, List.nil_append,
    List.singleton_append, List.dropWhile_cons]
  rw [if_pos (by decide)]
  rw [dropWhileP_all (fun c hc =>
    decToString_no_euro (List.mem_reverse.mp hc))]
  simp

theorem stripList_eq_self2 {l : List Char}
    (h1 : ∃ hc M, l = hc :: M ∧ isWs hc = false)
    (h2 : ∃ Y b, l = Y ++ [b] ∧ isWs b = false) :
    stripList l = l := by
  obtain ⟨hc, M, rfl, hhc⟩ := h1
  obtain ⟨Y, b, hYb, hb⟩ := h2
  unfold stripList
  rw [dropWhileP_cons_false hhc, hYb, stripEnd_concat_nws Y hb]

theorem splitP_five (p : Char → Bool) (T1 T2 T3 T4 T5 : List Char) (c : Char)
    (hc : p c = true)
    (h1 : ∀ x ∈ T1, p x = false) (h2 : ∀ x ∈ T2, p x = false)
    (h3 : ∀ x ∈ T3, p x = false) (h4 : ∀ x ∈ T4, p x = false)
    (h5 : ∀ x ∈ T5, p x = false) :
    splitP p (T1 ++ c :: (T2 ++ c :: (T3 ++ c :: (T4 ++ c :: T5)))) =
      [T1, T2, T3, T4, T5] := by
  rw [splitP_append_sep _ h1 hc, splitP_append_sep _ h2 hc,
    splitP_append_sep _ h3 hc, splitP_append_sep _ h4 hc, splitP_no_sep h5]

theorem map_data_mk (L : List (List Char)) :
    L.map (fun x => (String.mk x).data) = L := by
  induction L with
  | nil => rfl
  | cons a t ih => rw [List.map_cons, ih]

theorem fromLine_elim {m i : Nat} {line : String} {mv : Move}
    (h : Move.fromLine m i line = some mv) :
    ∃ D A K C S : List Char,
      splitP (fun c => c == ' ') (stripList line.data) = [D, A, K, C, S] ∧
      strptimeDate (String.mk D) = some mv.date ∧
      parseDec (String.mk (rstripEuro A)) = some mv.amount ∧
      mv.kind = String.mk K ∧ mv.category = String.mk C ∧
      mv.status = String.mk S ∧ mv.description = none ∧ mv.comment = "" ∧
      mv.index = m ∧ mv.lineNumber = i := by
  unfold Move.fromLine at h
  split at h
  · rename_i d0 a0 k0 c0 s0 heq
    split at h
    · rename_i dt q hdt hq
      injection h with h
      subst h
      refine ⟨d0.data, a0.data, k0.data, c0.data, s0.data, ?_, hdt, hq,
        rfl, rfl, rfl, rfl, rfl, rfl, rfl⟩
      have h2 := congrArg (List.map String.data) heq
      rw [List.map_map] at h2
      have h3 : (splitP (fun c => c == ' ') (stripList line.data)).map
          (String.data ∘ String.mk) =
          splitP (fun c => c == ' ') (stripList line.data) :=
        map_data_mk _
      rw [h3] at h2
      rw [h2]
      rfl
    · exact Option.noConfusion h
  · exact Option.noConfusion h

theorem fromLine_intro (m i : Nat) (line : String)
    (D A K C S : List Char) (dt : Date) (q : Dec)
    (hsp : splitP (fun c => c == ' ') (stripList line.data) = [D, A, K, C, S])
    (hdt : strptimeDate (String.mk D) = some dt)
    (hq : parseDec (String.mk (rstripEuro A)) = some q) :
    Move.fromLine m i line =
      some ⟨m, i, dt, q, String.mk K, String.mk C, String.mk S, none, ""⟩ := by
  unfold Move.fromLine
  rw [hsp]
  show (match strptimeDate (String.mk D),
      parseDec (String.mk (rstripEuro (String.mk A).data)) with
    | some dt, some q =>
      some (⟨m, i, dt, q, String.mk K, String.mk C, String.mk S, none, ""⟩ :
        Move)
    | _, _ => none) = _
  rw [show (String.mk A).data = A from rfl, hdt, hq]

theorem parseYear_le {l : List Char} {y : Nat} (h : parseYear l = some y) :
    y ≤ 9999 := by
  unfold parseYear at h
  split at h
  · rename_i hc
    injection h with h
    subst h
    have := digitsToNat_lt (List.all_eq_true.mp hc.2)
    rw [hc.1] at this
    omega
  · exact Option.noConfusion h

theorem digitVal_pos {c : Char} (h : digit? c = true) (h0 : c ≠ '0') :
    1 ≤ digitVal c := by
  obtain ⟨h1, h2⟩ := digit?_toNat h
  unfold digitVal
  rcases Nat.lt_or_ge 48 c.toNat with hlt | hge
  · omega
  · exfalso
    apply h0
    have he : c.toNat = 48 := by omega
    have := congrArg Char.ofNat he
    rwa [Char.ofNat_toNat] at this

theorem parseMonth_bounds {l : List Char} {m : Nat}
    (h : parseMonth l = some m) : 1 ≤ m ∧ m ≤ 12 := by
  unfold parseMonth at h
  split at h
  · rename_i c
    split at h
    · rename_i hc
      injection h with h
      subst h
      exact ⟨digitVal_pos hc.1 hc.2, le_trans (digitVal_le_nine hc.1) (by omega)⟩
    · exact Option.noConfusion h
  · rename_i c1 c2
    split at h
    · rename_i hc
      injection h with h
      subst h
      rcases hc with ⟨rfl, h2⟩ | ⟨rfl, hd, h0⟩
      · rcases h2 with rfl | rfl | rfl <;> exact ⟨by decide, by decide⟩
      · have := digitVal_le_nine hd
        have := digitVal_pos hd h0
        have hv : digitVal '0' = 0 := by decide
        rw [hv]
        omega
    · exact Option.noConfusion h
  · exact Option.noConfusion h

theorem parseDay_bounds {l : List Char} {d : Nat}
    (h : parseDay l = some d) : 1 ≤ d ∧ d ≤ 31 := by
  unfold parseDay at h
  split at h
  · rename_i c
    split at h
    · rename_i hc
      injection h with h
      subst h
      exact ⟨digitVal_pos hc.1 hc.2, le_trans (digitVal_le_nine hc.1) (by omega)⟩
    · exact Option.noConfusion h
  · rename_i c1 c2
    split at h
    · rename_i hc
      injection h with h
      subst h
      rcases hc with ⟨rfl, h2⟩ | ⟨h1, hd⟩ | ⟨rfl, hd, h0⟩
      · rcases h2 with rfl | rfl <;> exact ⟨by decide, by decide⟩
      · have := digitVal_le_nine hd
        rcases h1 with rfl | rfl
        · have hv : digitVal '1' = 1 := by decide
          rw [hv]; omega
        · have hv : digitVal '2' = 2 := by decide
          rw [hv]; omega
      · have := digitVal_le_nine hd
        have := digitVal_pos hd h0
        have hv : digitVal '0' = 0 := by decide
        rw [hv]
        omega
    · exact Option.noConfusion h
  · exact Option.noConfusion h

theorem strptimeDate_bounds {s : String} {dt : Date}
    (h : strptimeDate s = some dt) :
    (1 ≤ dt.y ∧ dt.y ≤ 9999) ∧ (1 ≤ dt.m ∧ dt.m ≤ 12) ∧
      (1 ≤ dt.d ∧ dt.d ≤ 31) ∧ dt.d ≤ daysInMonth dt.y dt.m := by
  unfold strptimeDate at h
  split at h
  · rename_i ys ms ds
    split at h
    · rename_i y m d hy hm hd
      split at h
      · rename_i hcond
        injection h with h
        subst h
        exact ⟨⟨hcond.1, parseYear_le hy⟩, parseMonth_bounds hm,
          parseDay_bounds hd, hcond.2⟩
      · exact Option.noConfusion h
    · exact Option.noConfusion h
  · exact Option.noConfusion h

theorem getLastQ_cons (c : Char) (Y : List Char) (h : Y ≠ []) :
    (c :: Y).getLast? = Y.getLast? := getLastQ_append [c] h

theorem firstLine_str (mv : Move)
    (hhead : ∃ hc M, mv.headerLine = hc :: M ∧ isWs hc = false)
    (hlast : ∃ Y b, mv.headerLine = Y ++ [b] ∧ isWs b = false)
    (hnl : ∀ c ∈ mv.headerLine, (!(c == '\n')) = true) :
    firstLine (Move.str mv) = String.mk mv.headerLine := by
  obtain ⟨hc, M, hH, hhc⟩ := hhead
  obtain ⟨Y, b, hH2, hb⟩ := hlast
  unfold Move.str firstLine
  have hdm : ∀ l : List Char, (String.mk l).data = l := fun _ => rfl
  rw [String.data_append, hdm, show ("\n\n" : String).data = ['\n', '\n'] from rfl]
  rw [List.cons_append, stripList_cons_ws (show isWs '\n' = true by decide)]
  unfold stripList
  rw [hH, List.cons_append, dropWhileP_cons_false hhc, ← List.cons_append, ← hH]
  rw [stripEnd_append]
  rcases stripEnd_cons_cases '\n' (' ' :: ' ' :: ' ' :: ' ' ::
      ((match mv.description with
        | none => "None".data
        | some d0 => d0.data) ++
       ('\n' :: ' ' :: ' ' :: ' ' :: ' ' :: mv.comment.data))) with hA | ⟨Z, hB⟩
  · have hE : ((('\n' :: (' ' :: ' ' :: ' ' :: ' ' ::
        ((match mv.description with
          | none => "None".data
          | some d0 => d0.data) ++
         ('\n' :: ' ' :: ' ' :: ' ' :: ' ' :: mv.comment.data)))).reverse.dropWhile
          isWs).isEmpty = true) := by
      rw [List.reverse_eq_nil_iff.mp hA]
      rfl
    rw [if_pos hE, hH2, stripEnd_concat_nws Y hb]
    rw [takeWhileP_append_stop ['\n'] (fun c hcm => hnl c (hH2 ▸ hcm))
      (by decide)]
  · have hE : ((('\n' :: (' ' :: ' ' :: ' ' :: ' ' ::
        ((match mv.description with
          | none => "None".data
          | some d0 => d0.data) ++
         ('\n' :: ' ' :: ' ' :: ' ' :: ' ' :: mv.comment.data)))).reverse.dropWhile
          isWs).isEmpty = false) := by
      have h0 : (List.dropWhile isWs
          (('\n' :: (' ' :: ' ' :: ' ' :: ' ' ::
            ((match mv.description with
              | none => "None".data
              | some d0 => d0.data) ++
             ('\n' :: ' ' :: ' ' :: ' ' :: ' ' :: mv.comment.data)))).reverse)) ≠
          [] := by
        intro hz
        rw [hz] at hB
        simp at hB
      exact Bool.eq_false_iff.mpr (fun hq => h0 (List.isEmpty_iff.mp hq))
    rw [if_neg (by rw [hE]; exact Bool.false_ne_true)]
    rw [hB, List.append_assoc, List.cons_append]
    rw [takeWhileP_append_stop _ (fun c hcm => hnl c hcm) (by decide)]

theorem exists_cons_of_eq_append {L X R : List Char} {a : Char}
    {X' : List Char} (hL : L = X ++ R) (hX : X = a :: X') :
    ∃ M, L = a :: M :=
  ⟨X' ++ R, by rw [hL, hX]; rfl⟩

theorem strftime_head (dt : Date) (hy : 1000 ≤ dt.y) (hy2 : dt.y ≤ 9999) :
    strftimeDate dt = digitChar (dt.y / 1000) ::
      ([digitChar (dt.y / 100 % 10), digitChar (dt.y / 10 % 10),
        digitChar (dt.y % 10)] ++ '/' :: pad2 dt.m ++ '/' :: pad2 dt.d) := by
  unfold strftimeDate
  rw [natDigs_year hy hy2]
  rfl

/-- Re-parsing the first line of a rendered record recovers the five header
fields, for any record assembled from a physical line whose year has four
digits when printed (at least 1000). -/
theorem header_roundtrip {m i j k : Nat} {line : String} {mv : Move}
    (h : Move.fromLine m i line = some mv) (hnn : noInnerNL line)
    (hy : 1000 ≤ mv.date.y) :
    ∃ mv', Move.fromLine j k (firstLine (Move.str mv)) = some mv' ∧
      mv'.date = mv.date ∧ mv'.amount = mv.amount ∧ mv'.kind = mv.kind ∧
      mv'.category = mv.category ∧ mv'.status = mv.status := by
  obtain ⟨D, A, K, C, S, hsplit, hdt, hq, hk, hcc, hss, hdesc, hcom, _, _⟩ :=
    fromLine_elim h
  obtain ⟨⟨hy1, hy2⟩, ⟨hm1, hm2⟩, ⟨hd1, hd2⟩, hval⟩ := strptimeDate_bounds hdt
  -- the stripped line is the join of the five tokens
  have hLjoin : stripList line.data =
      D ++ ' ' :: (A ++ ' ' :: (K ++ ' ' :: (C ++ ' ' :: S))) := by
    have h0 := joinCh_splitCh ' ' (stripList line.data)
    unfold splitCh at h0
    rw [hsplit] at h0
    rw [← h0]
    rfl
  -- token character facts
  have hKmem : ∀ c ∈ K, ((c == ' ') : Bool) = false :=
    mem_splitP (by rw [hsplit]; simp)
  have hCmem : ∀ c ∈ C, ((c == ' ') : Bool) = false :=
    mem_splitP (by rw [hsplit]; simp)
  have hSmem : ∀ c ∈ S, ((c == ' ') : Bool) = false :=
    mem_splitP (by rw [hsplit]; simp)
  have hin : ∀ c : Char, ∀ T, T ∈ ([D, A, K, C, S] : List (List Char)) →
      c ∈ T → c ≠ '\n' := by
    intro c T hT hcm hq2
    subst hq2
    exact hnn (mem_of_mem_splitP (by rw [hsplit]; exact hT) hcm)
  -- the stripped line ends in a non-whitespace character, which is the last
  -- character of the status token
  have hne : stripList line.data ≠ [] := by
    intro hz
    rw [hz] at hsplit
    simp [splitP] at hsplit
  obtain ⟨Y0, b0, hYb, hb0⟩ := stripList_concat hne
  have e2 : (stripList line.data).getLast? = some b0 := by
    rw [hYb]
    exact getLastQ_concat Y0 b0
  have hSne : S ≠ [] := by
    intro hz
    subst hz
    have e1 : (stripList line.data).getLast? = some ' ' := by
      rw [hLjoin]
      rw [getLastQ_append D (by simp), getLastQ_cons ' ' _ (by simp),
        getLastQ_append A (by simp), getLastQ_cons ' ' _ (by simp),
        getLastQ_append K (by simp), getLastQ_cons ' ' _ (by simp),
        getLastQ_append C (by simp)]
      rfl
    rw [e1] at e2
    injection e2 with e2
    rw [← e2] at hb0
    exact absurd hb0 (by decide)
  have hSlast : S.getLast? = some b0 := by
    have e1 : (stripList line.data).getLast? = S.getLast? := by
      rw [hLjoin]
      rw [getLastQ_append D (by simp), getLastQ_cons ' ' _ (by simp),
        getLastQ_append A (by simp), getLastQ_cons ' ' _ (by simp),
        getLastQ_append K (by simp), getLastQ_cons ' ' _ (by simp),
        getLastQ_append C (by simp), getLastQ_cons ' ' _ hSne]
    rw [← e1, e2]
  obtain ⟨S0, bS, hS0⟩ := (List.eq_nil_or_concat S).resolve_left hSne
  rw [List.concat_eq_append] at hS0
  have hbS : bS = b0 := by
    have : S.getLast? = some bS := by
      rw [hS0]
      exact getLastQ_concat S0 bS
    rw [this] at hSlast
    injection hSlast
  have hbSws : isWs bS = false := by rw [hbS]; exact hb0
  -- the header line in five-token shape
  have hHDRshape : mv.headerLine =
      strftimeDate mv.date ++ ' ' ::
        ((decToString mv.amount ++ ['€']) ++ ' ' ::
          (K ++ ' ' :: (C ++ ' ' :: S))) := by
    unfold Move.headerLine
    rw [hk, hcc, hss]
    simp [List.append_assoc]
  have hhead : ∃ hc M, mv.headerLine = hc :: M ∧ isWs hc = false := by
    obtain ⟨M0, hM0⟩ := exists_cons_of_eq_append hHDRshape
      (strftime_head mv.date hy hy2)
    refine ⟨digitChar (mv.date.y / 1000), M0, hM0, ?_⟩
    exact (digitChar_props (by omega)).1
  have hlast : ∃ Y b, mv.headerLine = Y ++ [b] ∧ isWs b = false := by
    refine ⟨strftimeDate mv.date ++ ' ' ::
      ((decToString mv.amount ++ ['€']) ++ ' ' ::
        (K ++ ' ' :: (C ++ ' ' :: S0))), bS, ?_, hbSws⟩
    rw [hHDRshape, hS0]
    simp [List.append_assoc]
  have hnl : ∀ c ∈ mv.headerLine, (!(c == '\n')) = true := by
    intro c hcm
    rw [hHDRshape] at hcm
    simp only [Bool.not_eq_true', beq_eq_false_iff_ne, ne_eq]
    intro hq2
    subst hq2
    rcases List.mem_append.mp hcm with hx | hx
    · exact absurd (strftime_no_nl hx) (by decide)
    · rcases List.mem_cons.mp hx with hx | hx
      · exact absurd hx (by decide)
      · rcases List.mem_append.mp hx with hx | hx
        · rcases List.mem_append.mp hx with hx | hx
          · exact absurd (decToString_no_nl hx) (by decide)
          · simp only [List.mem_singleton] at hx
            exact absurd hx (by decide)
        · rcases List.mem_cons.mp hx with hx | hx
          · exact absurd hx (by decide)
          · rcases List.mem_append.mp hx with hx | hx
            · exact hin _ K (by simp) hx rfl
            · rcases List.mem_cons.mp hx with hx | hx
              · exact absurd hx (by decide)
              · rcases List.mem_append.mp hx with hx | hx
                · exact hin _ C (by simp) hx rfl
                · rcases List.mem_cons.mp hx with hx | hx
                  · exact absurd hx (by decide)
                  · exact hin _ S (by simp) hx rfl
  refine ⟨⟨j, k, mv.date, mv.amount, String.mk K, String.mk C, String.mk S,
    none, ""⟩, ?_, rfl, rfl, hk.symm, hcc.symm, hss.symm⟩
  rw [firstLine_str mv hhead hlast hnl]
  refine fromLine_intro j k (String.mk mv.headerLine)
    (strftimeDate mv.date) (decToString mv.amount ++ ['€']) K C S
    mv.date mv.amount ?_ ?_ ?_
  · rw [show (String.mk mv.headerLine).data = mv.headerLine from rfl]
    rw [stripList_eq_self2
      (by obtain ⟨hc, M0, hM0, hw⟩ := hhead; exact ⟨hc, M0, hM0, hw⟩)
      (by obtain ⟨Yx, bx, hx, hw⟩ := hlast; exact ⟨Yx, bx, hx, hw⟩)]
    rw [hHDRshape]
    exact splitP_five (fun c => c == ' ') (strftimeDate mv.date)
      (decToString mv.amount ++ ['€']) K C S ' ' (by decide)
      (fun x hx => strftime_no_space hx)
      (by intro x hx
          rcases List.mem_append.mp hx with hx | hx
          · exact decToString_no_space hx
          · simp only [List.mem_singleton] at hx
            subst hx
            decide)
      hKmem hCmem hSmem
  · exact strptime_strftime mv.date hy hy2 hm1 hm2 hd1 hd2 hval
  · rw [rstripEuro_dec mv.amount]
    exact parseDec_decToString mv.amount

/-! ### The parse loop emits only filtered records -/

theorem mem_emitIf {cfg : Config} {mv0 mv : Move}
    (h : mv ∈ MovesFile.emitIf cfg mv0) :
    MovesFile.filter cfg mv = true := by
  unfold MovesFile.emitIf at h
  split at h
  · rename_i hf
    rw [List.mem_singleton] at h
    subst h
    exact hf
  · exact absurd h (List.not_mem_nil mv)

theorem filter_date {cfg : Config} {mv : Move}
    (h : MovesFile.filter cfg mv = true) :
    Date.leB cfg.startDate mv.date = true ∧
      Date.leB mv.date cfg.endDate = true := by
  unfold MovesFile.filter at h
  split at h
  · exact absurd h (by simp)
  · split at h
    · exact absurd h (by simp)
    · split at h
      · exact absurd h (by simp)
      · simpa using h

theorem parseGo_filter (cfg : Config) (rest : List (Nat × String)) :
    ∀ (st : RegSt) (seq : Nat) (mode : Option Move) (i : Nat) (line : String)
      (moves : List Move) (st' : RegSt),
      MovesFile.parseGo cfg st seq mode i line rest = .ok (moves, st') →
      ∀ mv ∈ moves, MovesFile.filter cfg mv = true := by
  induction rest with
  | nil =>
    intro st seq mode i line moves st' h mv hmv
    cases mode with
    | none =>
      unfold MovesFile.parseGo at h
      split at h
      · split at h
        · exact absurd h (by simp)
        · injection h with h
          injection h with h1 h2
          subst h1
          exact absurd hmv (List.not_mem_nil mv)
      · split at h
        · split at h
          · exact absurd h (by simp)
          · injection h with h
            injection h with h1 h2
            subst h1
            exact absurd hmv (List.not_mem_nil mv)
        · injection h with h
          injection h with h1 h2
          subst h1
          exact absurd hmv (List.not_mem_nil mv)
    | some mv0 =>
      unfold MovesFile.parseGo at h
      split at h
      · split at h
        · exact absurd h (by simp)
        · injection h with h
          injection h with h1 h2
          subst h1
          exact mem_emitIf hmv
      · split at h
        · split at h
          · exact absurd h (by simp)
          · injection h with h
            injection h with h1 h2
            subst h1
            exact mem_emitIf hmv
        · injection h with h
          injection h with h1 h2
          subst h1
          exact mem_emitIf hmv
  | cons hd r ih =>
    intro st seq mode i line moves st' h mv hmv
    obtain ⟨i0, l0⟩ := hd
    cases mode with
    | none =>
      unfold MovesFile.parseGo at h
      split at h
      · split at h
        · exact absurd h (by simp)
        · exact ih _ _ _ _ _ _ _ h mv hmv
      · split at h
        · split at h
          · exact absurd h (by simp)
          · exact ih _ _ _ _ _ _ _ h mv hmv
        · exact ih _ _ _ _ _ _ _ h mv hmv
    | some mv0 =>
      unfold MovesFile.parseGo at h
      split at h
      · split at h
        · exact absurd h (by simp)
        · rename_i mv2 heq2
          cases hrec : MovesFile.parseGo cfg st (seq + 1) (some mv2) i0 l0 r with
          | error e =>
            rw [hrec] at h
            exact absurd h (by simp [Except.map])
          | ok p0 =>
            obtain ⟨ms0, st0⟩ := p0
            rw [hrec] at h
            simp only [Except.map] at h
            injection h with h
            injection h with h1 h2
            subst h1
            rcases List.mem_append.mp hmv with hx | hx
            · exact mem_emitIf hx
            · exact ih _ _ _ _ _ _ _ hrec mv hx
      · exact ih _ _ _ _ _ _ _ h mv hmv

/-! ### Registry lookups and the kind-to-account invariant -/

theorem lookupS_cons {α : Type} (a : String) (b : α) (t : List (String × α))
    (k : String) :
    lookupS k ((a, b) :: t) = if a = k then some b else lookupS k t := rfl

theorem setS_cons {α : Type} (a : String) (b : α) (t : List (String × α))
    (k' : String) (v : α) :
    setS ((a, b) :: t) k' v =
      if a = k' then (a, v) :: t else (a, b) :: setS t k' v := rfl

theorem lookupS_setS {α : Type} (m : List (String × α)) (k' : String) (v : α)
    (k : String) :
    lookupS k (setS m k' v) = if k' = k then some v else lookupS k m := by
  induction m with
  | nil => simp [setS, lookupS]
  | cons p t ih =>
    obtain ⟨a, b⟩ := p
    rw [setS_cons]
    by_cases hak : a = k'
    · rw [if_pos hak, lookupS_cons, lookupS_cons]
      subst hak
      by_cases h1 : a = k
      · rw [if_pos h1, if_pos h1]
      · rw [if_neg h1, if_neg h1, if_neg h1]
    · rw [if_neg hak, lookupS_cons, lookupS_cons, ih]
      split_ifs with h1 h2
      · exact absurd (h1.trans h2.symm) hak
      · rfl
      · rfl
      · rfl

theorem lookupS_setS_isSome {α : Type} {m : List (String × α)} {k : String}
    (k' : String) (v : α) (h : (lookupS k m).isSome = true) :
    (lookupS k (setS m k' v)).isSome = true := by
  rw [lookupS_setS]
  split
  · rfl
  · exact h

theorem lookupS_foldl_setS {α : Type} (v : α) (ks : List String) :
    ∀ (m0 : List (String × α)) (k : String) (a : α),
      lookupS k (ks.foldl (fun m k' => setS m k' v) m0) = some a →
      a = v ∨ lookupS k m0 = some a := by
  induction ks with
  | nil => intro m0 k a h; exact Or.inr h
  | cons k0 t ih =>
    intro m0 k a h
    rw [List.foldl_cons] at h
    rcases ih (setS m0 k0 v) k a h with h1 | h1
    · exact Or.inl h1
    · rw [lookupS_setS] at h1
      split at h1
      · exact Or.inl (Option.some_injective _ h1).symm
      · exact Or.inr h1

theorem regDecl_inv {st : RegSt} (d0 : String × List String × Dec)
    (h : ∀ k a, lookupS k st.kinds = some a →
      (lookupS a st.accounts).isSome = true) :
    ∀ k a, lookupS k (MovesFile.regDecl st d0).kinds = some a →
      (lookupS a (MovesFile.regDecl st d0).accounts).isSome = true := by
  intro k a hka
  unfold MovesFile.regDecl at hka ⊢
  rcases lookupS_foldl_setS d0.1 d0.2.1 st.kinds k a hka with h1 | h1
  · subst h1
    rw [lookupS_setS, if_pos rfl]
    rfl
  · exact lookupS_setS_isSome _ _ (h k a h1)

theorem parseGo_inv (cfg : Config) (rest : List (Nat × String)) :
    ∀ (st : RegSt) (seq : Nat) (mode : Option Move) (i : Nat) (line : String)
      (moves : List Move) (st' : RegSt),
      MovesFile.parseGo cfg st seq mode i line rest = .ok (moves, st') →
      (∀ k a, lookupS k st.kinds = some a →
        (lookupS a st.accounts).isSome = true) →
      ∀ k a, lookupS k st'.kinds = some a →
        (lookupS a st'.accounts).isSome = true := by
  induction rest with
  | nil =>
    intro st seq mode i line moves st' h hinv
    cases mode with
    | none =>
      unfold MovesFile.parseGo at h
      split at h
      · split at h
        · exact absurd h (by simp)
        · injection h with h
          injection h with h1 h2
          subst h2
          exact regDecl_inv _ hinv
      · split at h
        · split at h
          · exact absurd h (by simp)
          · injection h with h
            injection h with h1 h2
            subst h2
            exact hinv
        · injection h with h
          injection h with h1 h2
          subst h2
          exact hinv
    | some mv0 =>
      unfold MovesFile.parseGo at h
      split at h
      · split at h
        · exact absurd h (by simp)
        · injection h with h
          injection h with h1 h2
          subst h2
          exact hinv
      · split at h
        · split at h
          · exact absurd h (by simp)
          · injection h with h
            injection h with h1 h2
            subst h2
            exact regDecl_inv _ hinv
        · injection h with h
          injection h with h1 h2
          subst h2
          exact hinv
  | cons hd r ih =>
    intro st seq mode i line moves st' h hinv
    obtain ⟨i0, l0⟩ := hd
    cases mode with
    | none =>
      unfold MovesFile.parseGo at h
      split at h
      · split at h
        · exact absurd h (by simp)
        · exact ih _ _ _ _ _ _ _ h (regDecl_inv _ hinv)
      · split at h
        · split at h
          · exact absurd h (by simp)
          · exact ih _ _ _ _ _ _ _ h hinv
        · exact ih _ _ _ _ _ _ _ h hinv
    | some mv0 =>
      unfold MovesFile.parseGo at h
      split at h
      · split at h
        · exact absurd h (by simp)
        · rename_i mv2 heq2
          cases hrec : MovesFile.parseGo cfg st (seq + 1) (some mv2) i0 l0 r with
          | error e =>
            rw [hrec] at h
            exact absurd h (by simp [Except.map])
          | ok p0 =>
            obtain ⟨ms0, st0⟩ := p0
            rw [hrec] at h
            simp only [Except.map] at h
            injection h with h
            injection h with h1 h2
            subst h2
            exact ih _ _ _ _ _ _ _ hrec hinv
      · exact ih _ _ _ _ _ _ _ h hinv

/-! ### Aggregation sums -/

theorem lookupS_map_toRat (l : List (String × Dec)) (k : String) :
    lookupS k (l.map (fun p0 => (p0.1, p0.2.toRat))) =
      (lookupS k l).map Dec.toRat := by
  induction l with
  | nil => rfl
  | cons p t ih =>
    obtain ⟨a, b⟩ := p
    rw [List.map_cons, lookupS_cons, lookupS_cons]
    by_cases h1 : a = k
    · rw [if_pos h1, if_pos h1]
      rfl
    · rw [if_neg h1, if_neg h1, ih]

theorem lookupS_bumpQ_isSome {l : List (String × ℚ)} {k : String}
    (k' : String) (v : ℚ) (h : (lookupS k l).isSome = true) :
    (lookupS k (bumpQ l k' v)).isSome = true := by
  induction l with
  | nil => simp [lookupS] at h
  | cons p t ih =>
    obtain ⟨a, b⟩ := p
    unfold bumpQ
    by_cases hak : a = k'
    · rw [if_pos hak, lookupS_cons]
      rw [lookupS_cons] at h
      by_cases h1 : a = k
      · rw [if_pos h1]
        rfl
      · rw [if_neg h1]
        rw [if_neg h1] at h
        exact h
    · rw [if_neg hak, lookupS_cons]
      rw [lookupS_cons] at h
      by_cases h1 : a = k
      · rw [if_pos h1]
        rfl
      · rw [if_neg h1]
        rw [if_neg h1] at h
        exact ih h

theorem bumpQ_sum (l : List (String × ℚ)) (k : String) (v : ℚ) :
    ((bumpQ l k v).map Prod.snd).sum = (l.map Prod.snd).sum + v := by
  induction l with
  | nil => simp [bumpQ]
  | cons p t ih =>
    obtain ⟨a, b⟩ := p
    unfold bumpQ
    by_cases hak : a = k
    · rw [if_pos hak]
      simp only [List.map_cons, List.sum_cons]
      ring
    · rw [if_neg hak]
      simp only [List.map_cons, List.sum_cons, ih]
      ring

theorem sumPos_cons (mv : Move) (t : List Move) :
    sumPos (mv :: t) =
      (if 0 < mv.amount.toRat then mv.amount.toRat else 0) + sumPos t := by
  simp [sumPos]

theorem sumNonpos_cons (mv : Move) (t : List Move) :
    sumNonpos (mv :: t) =
      (if 0 < mv.amount.toRat then 0 else mv.amount.toRat) + sumNonpos t := by
  simp [sumNonpos]

theorem sumPos_add_sumNonpos (moves : List Move) :
    sumPos moves + sumNonpos moves = sumAll moves := by
  induction moves with
  | nil => simp [sumPos, sumNonpos, sumAll]
  | cons mv t ih =>
    rw [sumPos_cons, sumNonpos_cons]
    unfold sumAll
    rw [List.map_cons, List.sum_cons]
    unfold sumAll at ih
    split_ifs with h
    · linarith
    · linarith

theorem aggGo_sums (hasA : Bool) (kinds : List (String × String))
    (moves : List Move) :
    ∀ (bin bout : Balance) (accts : List (String × ℚ))
      (bin' bout' : Balance) (accts' : List (String × ℚ)),
      MovesFile.aggGo hasA kinds bin bout accts moves =
        .ok (bin', bout', accts') →
      (bin'.entries.map Prod.snd).sum
          = (bin.entries.map Prod.snd).sum + sumPos moves ∧
      (bout'.entries.map Prod.snd).sum
          = (bout.entries.map Prod.snd).sum + sumNonpos moves ∧
      bin'.coef = bin.coef ∧ bout'.coef = bout.coef := by
  induction moves with
  | nil =>
    intro bin bout accts bin' bout' accts' h
    unfold MovesFile.aggGo at h
    injection h with h
    injection h with h1 h2
    injection h2 with h2 h3
    subst h1
    subst h2
    simp [sumPos, sumNonpos]
  | cons mv t ih =>
    intro bin bout accts bin' bout' accts' h
    unfold MovesFile.aggGo at h
    simp only [] at h
    by_cases hpos : 0 < mv.amount.toRat
    · simp only [if_pos hpos] at h
      split at h
      · split at h
        · split at h
          · rcases ih _ _ _ _ _ _ h with ⟨h1, h2, h3, h4⟩
            refine ⟨?_, ?_, h3, h4⟩
            · rw [h1, sumPos_cons, if_pos hpos]
              simp only [Balance.bump]
              rw [bumpQ_sum]
              ring
            · rw [h2, sumNonpos_cons, if_pos hpos]
              ring
          · exact absurd h (by simp)
        · exact absurd h (by simp)
      · rcases ih _ _ _ _ _ _ h with ⟨h1, h2, h3, h4⟩
        refine ⟨?_, ?_, h3, h4⟩
        · rw [h1, sumPos_cons, if_pos hpos]
          simp only [Balance.bump]
          rw [bumpQ_sum]
          ring
        · rw [h2, sumNonpos_cons, if_pos hpos]
          ring
    · simp only [if_neg hpos] at h
      split at h
      · split at h
        · split at h
          · rcases ih _ _ _ _ _ _ h with ⟨h1, h2, h3, h4⟩
            refine ⟨?_, ?_, h3, h4⟩
            · rw [h1, sumPos_cons, if_neg hpos]
              ring
            · rw [h2, sumNonpos_cons, if_neg hpos]
              simp only [Balance.bump]
              rw [bumpQ_sum]
              ring
          · exact absurd h (by simp)
        · exact absurd h (by simp)
      · rcases ih _ _ _ _ _ _ h with ⟨h1, h2, h3, h4⟩
        refine ⟨?_, ?_, h3, h4⟩
        · rw [h1, sumPos_cons, if_neg hpos]
          ring
        · rw [h2, sumNonpos_cons, if_neg hpos]
          simp only [Balance.bump]
          rw [bumpQ_sum]
          ring

/-! ### Aggregation errors, continuation folding, iterator -/

theorem aggGo_ok_noAccounts (kinds : List (String × String))
    (moves : List Move) :
    ∀ (bin bout : Balance) (accts : List (String × ℚ)),
      ∃ r, MovesFile.aggGo false kinds bin bout accts moves = .ok r := by
  induction moves with
  | nil =>
    intro bin bout accts
    exact ⟨(bin, bout, accts), rfl⟩
  | cons mv t ih =>
    intro bin bout accts
    unfold MovesFile.aggGo
    simp only [Bool.false_eq_true, if_false]
    exact ih _ _ _

theorem aggGo_unknownKind (kinds : List (String × String))
    (moves : List Move) :
    ∀ (bin bout : Balance) (accts : List (String × ℚ)),
      (∀ k a, lookupS k kinds = some a →
        (lookupS a accts).isSome = true) →
      (∃ mv ∈ moves, lookupS mv.kind kinds = none) →
      ∃ k, (∃ mv ∈ moves, mv.kind = k ∧ lookupS k kinds = none) ∧
        MovesFile.aggGo true kinds bin bout accts moves =
          .error (.unknownKind k) := by
  induction moves with
  | nil =>
    intro bin bout accts hinv hex
    obtain ⟨mv, hmem, _⟩ := hex
    exact absurd hmem (List.not_mem_nil mv)
  | cons mv t ih =>
    intro bin bout accts hinv hex
    by_cases hk : lookupS mv.kind kinds = none
    · refine ⟨mv.kind, ⟨mv, List.mem_cons_self mv t, rfl, hk⟩, ?_⟩
      unfold MovesFile.aggGo
      simp [hk]
    · obtain ⟨a0, ha0⟩ := Option.ne_none_iff_exists'.mp hk
      have hsome := hinv mv.kind a0 ha0
      obtain ⟨v0, hv0⟩ := Option.isSome_iff_exists.mp hsome
      have hex' : ∃ mv' ∈ t, lookupS mv'.kind kinds = none := by
        obtain ⟨mv', hmem, hnone⟩ := hex
        rcases List.mem_cons.mp hmem with h1 | h1
        · subst h1
          exact absurd hnone hk
        · exact ⟨mv', h1, hnone⟩
      have hinv' : ∀ k a, lookupS k kinds = some a →
          (lookupS a (bumpQ accts a0 mv.amount.toRat)).isSome = true :=
        fun k a hka => lookupS_bumpQ_isSome a0 mv.amount.toRat (hinv k a hka)
      obtain ⟨k, hkex, heq⟩ := ih (if 0 < mv.amount.toRat then
          bin.bump mv.category mv.amount.toRat else bin)
        (if 0 < mv.amount.toRat then bout
          else bout.bump mv.category mv.amount.toRat)
        (bumpQ accts a0 mv.amount.toRat) hinv' hex'
      refine ⟨k, ?_, ?_⟩
      · obtain ⟨mv', hmem, hkk, hkn⟩ := hkex
        exact ⟨mv', List.mem_cons_of_mem mv hmem, hkk, hkn⟩
      · unfold MovesFile.aggGo
        simp only [if_pos rfl, ha0, hv0]
        exact heq

theorem catS_cons (a : String) (t : List String) :
    catS (a :: t) = a ++ catS t := rfl

theorem foldl_add_some (lines : List String) :
    ∀ (mv : Move) (d : String), mv.description = some d →
      (lines.foldl Move.add mv).comment =
        mv.comment ++
          catS ((lines.filter (fun l => !(pyStrip l == ""))).map pyStripSp) := by
  induction lines with
  | nil =>
    intro mv d hd
    simp [catS]
  | cons l ls ih =>
    intro mv d hd
    rw [List.foldl_cons]
    by_cases hb : pyStrip l = ""
    · have hAdd : Move.add mv l = mv := by
        unfold Move.add
        rw [if_neg (fun hq => hq hb)]
      rw [hAdd, ih mv d hd, List.filter_cons]
      simp [hb]
    · have hAdd : Move.add mv l =
          { mv with comment := mv.comment ++ pyStripSp l } := by
        unfold Move.add
        rw [if_pos hb, hd]
      rw [hAdd, ih { mv with comment := mv.comment ++ pyStripSp l } d hd,
        List.filter_cons]
      simp only [hb, decide_not, decide_eq_true_eq]
      rw [if_pos (by simp [hb])]
      rw [List.map_cons, catS_cons]
      simp [String.append_assoc]

theorem foldl_add_none (lines : List String) :
    ∀ (mv : Move), mv.description = none → mv.comment = "" →
      (lines.foldl Move.add mv).comment =
        catS ((((lines.filter (fun l => !(pyStrip l == ""))).drop 1)).map
          pyStripSp) := by
  induction lines with
  | nil =>
    intro mv hd hc
    simpa [catS] using hc
  | cons l ls ih =>
    intro mv hd hc
    rw [List.foldl_cons]
    by_cases hb : pyStrip l = ""
    · have hAdd : Move.add mv l = mv := by
        unfold Move.add
        rw [if_neg (fun hq => hq hb)]
      rw [hAdd, ih mv hd hc, List.filter_cons]
      simp [hb]
    · have hAdd : Move.add mv l =
          { mv with description := some (pyStrip l) } := by
        unfold Move.add
        rw [if_pos hb, hd]
      rw [hAdd, foldl_add_some ls _ (pyStrip l) rfl, List.filter_cons]
      simp only [hb, decide_not, decide_eq_true_eq]
      rw [if_pos (by simp [hb])]
      rw [List.drop_succ_cons, List.drop_zero]
      rw [show ({ mv with description := some (pyStrip l) } : Move).comment =
        mv.comment from rfl, hc]
      rfl

theorem iterGo_seeking_nil (mk0 : String) (ls : List String) :
    ∀ (i : Nat),
      (∀ l ∈ ls, startsL mk0.data l.data = false) →
      iterGo (.seeking mk0) i ls = [] := by
  induction ls with
  | nil =>
    intro i _
    rfl
  | cons l t ih =>
    intro i h
    have hstep : iterGo (.seeking mk0) i (l :: t) =
        if startsL mk0.data l.data then iterGo .active (i + 1) t
        else iterGo (.seeking mk0) (i + 1) t := rfl
    rw [hstep, if_neg (by rw [h l (List.mem_cons_self l t)]; simp)]
    exact ih (i + 1) (fun x hx => h x (List.mem_cons_of_mem l hx))

theorem startsL_self_append (n suf : List Char) :
    startsL n (n ++ suf) = true := by
  induction n with
  | nil => simp [startsL]
  | cons c t ih => simp [startsL, ih]

theorem isSubL_self (pre n suf : List Char) :
    isSubL n (pre ++ n ++ suf) = true := by
  induction pre with
  | nil =>
    cases hn : n with
    | nil =>
      cases suf with
      | nil => rfl
      | cons c t => simp [isSubL, startsL]
    | cons c t =>
      simp only [List.nil_append, List.cons_append]
      unfold isSubL
      rw [show startsL (c :: t) (c :: (t ++ suf)) = true from
        startsL_self_append (c :: t) suf]
      rfl
  | cons c t ih =>
    simp only [List.cons_append]
    unfold isSubL
    rw [List.append_assoc] at ih
    rw [List.append_assoc, ih]
    simp

/-! ### The claims -/

/-- Claim C1: the specification says that when the configured period marker
is never found the iterator yields no lines and parsing completes with an
empty record list, treated as "no transactions in period" rather than a
fatal error.  The first half holds, but the parse does NOT complete: the
unguarded `next(fd)` at the top of `MovesFile.parse` escapes as a fatal
`RuntimeError` under PEP 479 when the iterator is empty, modelled here as
the `PErr.emptyIter` error. -/
theorem claim_C1 (cfg : Config) (fileLines : List String) (p : String)
    (hp : cfg.period = some p) (hne : p ≠ "")
    (h : ∀ l ∈ fileLines, startsL ("-- " ++ p).data l.data = false) :
    MovesFile.iterator cfg fileLines = [] ∧
      MovesFile.parse cfg fileLines = .error PErr.emptyIter := by
  have hiter : MovesFile.iterator cfg fileLines = [] := by
    unfold MovesFile.iterator
    rw [hp]
    show iterGo (if p = "" then PerSt.noper else PerSt.seeking ("-- " ++ p))
      0 fileLines = []
    rw [if_neg hne]
    exact iterGo_seeking_nil ("-- " ++ p) fileLines 0 h
  refine ⟨hiter, ?_⟩
  unfold MovesFile.parse
  rw [hiter]

theorem claim_C1_witness :
    MovesFile.iterator cfgPer ["hello\n"] = [] ∧
      MovesFile.parse cfgPer ["hello\n"] = .error PErr.emptyIter :=
  claim_C1 cfgPer ["hello\n"] "P1" rfl (by decide) (by decide)

/-- Claim C2 (corrected): a declaration line does register the account with
its decimal amount and map each parsed kind token to it, but the kind list
is the parenthesized token with its first character and its last TWO
characters dropped (`kinds[1:-2]`), so the final kind loses its last
character: `++ bank (CB,TR) 1000.00` registers kinds `CB` and `T`, not
`TR`. -/
theorem claim_C2 (st : RegSt) :
    MovesFile.parseDecl "++ bank (CB,TR) 1000.00\n" =
      some ("bank", ["CB", "T"], ⟨false, 100000, -2⟩) ∧
    (Dec.mk false 100000 (-2)).toRat = 1000 ∧
    lookupS "CB" (MovesFile.regDecl st
      ("bank", ["CB", "T"], ⟨false, 100000, -2⟩)).kinds = some "bank" ∧
    lookupS "T" (MovesFile.regDecl st
      ("bank", ["CB", "T"], ⟨false, 100000, -2⟩)).kinds = some "bank" ∧
    lookupS "bank" (MovesFile.regDecl st
      ("bank", ["CB", "T"], ⟨false, 100000, -2⟩)).accounts =
      some ⟨false, 100000, -2⟩ := by
  refine ⟨rfl, by norm_num [Dec.toRat], ?_, ?_, ?_⟩
  · show lookupS "CB" (setS (setS st.kinds "CB" "bank") "T" "bank") =
      some "bank"
    rw [lookupS_setS, if_neg (by decide), lookupS_setS, if_pos rfl]
  · show lookupS "T" (setS (setS st.kinds "CB" "bank") "T" "bank") =
      some "bank"
    rw [lookupS_setS, if_pos rfl]
  · show lookupS "bank" (setS st.accounts "bank" ⟨false, 100000, -2⟩) =
      some ⟨false, 100000, -2⟩
    rw [lookupS_setS, if_pos rfl]

/-- Claim C2 counterexample: after `++ bank (CB,TR) 1000.00` the kind `TR`
is NOT registered (the `[1:-2]` slice cut its final character); `T` is
registered in its place. -/
theorem claim_C2_cex :
    ∃ d0, MovesFile.parseDecl "++ bank (CB,TR) 1000.00\n" = some d0 ∧
      lookupS "TR" (MovesFile.regDecl ⟨[], []⟩ d0).kinds = none ∧
      lookupS "T" (MovesFile.regDecl ⟨[], []⟩ d0).kinds = some "bank" :=
  ⟨("bank", ["CB", "T"], ⟨false, 100000, -2⟩), rfl, rfl, rfl⟩

theorem claim_C2_witness :
    MovesFile.parseDecl "++ bank (CB,TR) 1000.00\n" =
      some ("bank", ["CB", "T"], ⟨false, 100000, -2⟩) ∧
    (Dec.mk false 100000 (-2)).toRat = 1000 ∧
    lookupS "CB" (MovesFile.regDecl ⟨[], []⟩
      ("bank", ["CB", "T"], ⟨false, 100000, -2⟩)).kinds = some "bank" ∧
    lookupS "T" (MovesFile.regDecl ⟨[], []⟩
      ("bank", ["CB", "T"], ⟨false, 100000, -2⟩)).kinds = some "bank" ∧
    lookupS "bank" (MovesFile.regDecl ⟨[], []⟩
      ("bank", ["CB", "T"], ⟨false, 100000, -2⟩)).accounts =
      some ⟨false, 100000, -2⟩ :=
  claim_C2 ⟨[], []⟩

/-- Claim C3 (corrected): a `++` declaration line seen while a record is
open does NOT close the record or get re-dispatched: it is handed to
`Move.add` as ordinary continuation text and the registries are untouched —
except when it is the very last line of the iterator output, in which case
the open record is closed (with the declaration applied to it as its last
continuation line) and the declaration is then also registered. -/
theorem claim_C3 (cfg : Config) (st : RegSt) (seq : Nat) (mv : Move)
    (i : Nat) (line : String) (i' : Nat) (l' : String)
    (rest : List (Nat × String)) (d0 : String × List String × Dec)
    (hpp : startsL "++ ".data line.data = true)
    (hnd : isDigit4 line = false)
    (hd : MovesFile.parseDecl line = some d0) :
    MovesFile.parseGo cfg st seq (some mv) i line ((i', l') :: rest) =
      MovesFile.parseGo cfg st seq (some (mv.add line)) i' l' rest ∧
    MovesFile.parseGo cfg st seq (some mv) i line [] =
      .ok (MovesFile.emitIf cfg (mv.add line), MovesFile.regDecl st d0) := by
  constructor
  · conv_lhs => rw [MovesFile.parseGo]
    rw [if_neg (by rw [hnd]; simp)]
  · conv_lhs => rw [MovesFile.parseGo]
    rw [if_neg (by rw [hnd]; simp), if_pos hpp, hd]

/-- Claim C3 counterexample: in the four-line file below, the declaration
`++ bank (CB,T) 100` that appears while the first transaction record is
open is neither registered (both registries stay empty) nor re-dispatched —
it ends up verbatim as the first record's `description`. -/
theorem claim_C3_cex :
    MovesFile.parse cfgEx
      ["2021/05/01 10.00€ CB food P\n", "++ bank (CB,T) 100\n",
       "2021/06/01 -5.00€ CB food X\n", "x\n"] =
    .ok ([⟨1, 1, ⟨2021, 5, 1⟩, ⟨false, 1000, -2⟩, "CB", "food", "P",
            some "++ bank (CB,T) 100", ""⟩,
          ⟨2, 3, ⟨2021, 6, 1⟩, ⟨true, 500, -2⟩, "CB", "food", "X",
            some "x", ""⟩],
         ⟨[], []⟩) := rfl

theorem claim_C3_witness :
    MovesFile.parseGo cfgEx ⟨[], []⟩ 0 (some mvEx1) 2
        "++ bank (CB,TR) 1000.00\n" [(3, "x\n")] =
      MovesFile.parseGo cfgEx ⟨[], []⟩ 0
        (some (mvEx1.add "++ bank (CB,TR) 1000.00\n")) 3 "x\n" [] ∧
    MovesFile.parseGo cfgEx ⟨[], []⟩ 0 (some mvEx1) 2
        "++ bank (CB,TR) 1000.00\n" [] =
      .ok (MovesFile.emitIf cfgEx (mvEx1.add "++ bank (CB,TR) 1000.00\n"),
        MovesFile.regDecl ⟨[], []⟩
          ("bank", ["CB", "T"], ⟨false, 100000, -2⟩)) :=
  claim_C3 cfgEx ⟨[], []⟩ 0 mvEx1 2 "++ bank (CB,TR) 1000.00\n" 3 "x\n" []
    ("bank", ["CB", "T"], ⟨false, 100000, -2⟩) rfl rfl rfl

/-- Claim C4: when the account registry built by the parse is non-empty and
some emitted record's kind is not in the kind-to-account map, the
aggregation fails with the unknown-kind error, whose message contains the
offending kind token (aborting the whole aggregation); when the registry is
empty no kind check is performed and aggregation always succeeds. -/
theorem claim_C4 (cfg : Config) (fileLines : List String)
    (moves : List Move) (st : RegSt)
    (hp : MovesFile.parse cfg fileLines = .ok (moves, st)) :
    (st.accounts ≠ [] →
      (∃ mv ∈ moves, lookupS mv.kind st.kinds = none) →
      ∃ k, (∃ mv ∈ moves, mv.kind = k ∧ lookupS k st.kinds = none) ∧
        MovesFile.aggregate st.accounts st.kinds moves =
          .error (.unknownKind k) ∧
        isSubL k.data (aggErrMsg (.unknownKind k)).data = true) ∧
    (st.accounts = [] →
      ∃ r, MovesFile.aggregate st.accounts st.kinds moves = .ok r) := by
  have hinv : ∀ k a, lookupS k st.kinds = some a →
      (lookupS a st.accounts).isSome = true := by
    unfold MovesFile.parse at hp
    split at hp
    · exact absurd hp (by simp)
    · rename_i i l r heq
      exact parseGo_inv cfg r ⟨[], []⟩ 0 none i l moves st hp
        (fun k a hka => by simp [lookupS] at hka)
  constructor
  · intro hne hex
    have hA : (!st.accounts.isEmpty) = true := by
      cases hacc : st.accounts with
      | nil => exact absurd hacc hne
      | cons a t => rfl
    have hinv0 : ∀ k a, lookupS k st.kinds = some a →
        (lookupS a (st.accounts.map
          (fun p0 : String × Dec => (p0.1, p0.2.toRat)))).isSome = true := by
      intro k a hka
      obtain ⟨v, hv⟩ := Option.isSome_iff_exists.mp (hinv k a hka)
      rw [lookupS_map_toRat, hv]
      rfl
    obtain ⟨k, hkex, heq⟩ := aggGo_unknownKind st.kinds moves
      (Balance.init true) (Balance.init false)
      (st.accounts.map (fun p0 : String × Dec => (p0.1, p0.2.toRat)))
      hinv0 hex
    refine ⟨k, hkex, ?_, ?_⟩
    · unfold MovesFile.aggregate
      rw [hA]
      exact heq
    · rw [show (aggErrMsg (.unknownKind k)).data =
        "Le type ".data ++ k.data ++ " est inconnu".data from rfl]
      exact isSubL_self "Le type ".data k.data " est inconnu".data
  · intro hacc
    unfold MovesFile.aggregate
    rw [hacc]
    exact aggGo_ok_noAccounts st.kinds moves (Balance.init true)
      (Balance.init false)
      ([].map (fun p0 : String × Dec => (p0.1, p0.2.toRat)))

theorem claim_C4_witness :
    (stExBank.accounts ≠ [] →
      (∃ mv ∈ [mvExZZ], lookupS mv.kind stExBank.kinds = none) →
      ∃ k, (∃ mv ∈ [mvExZZ], mv.kind = k ∧
          lookupS k stExBank.kinds = none) ∧
        MovesFile.aggregate stExBank.accounts stExBank.kinds [mvExZZ] =
          .error (.unknownKind k) ∧
        isSubL k.data (aggErrMsg (.unknownKind k)).data = true) ∧
    (stExBank.accounts = [] →
      ∃ r, MovesFile.aggregate stExBank.accounts stExBank.kinds [mvExZZ] =
        .ok r) :=
  claim_C4 cfgEx
    ["++ bank (CB,TR) 1000.00\n", "2021/05/01 10.00€ ZZ food P\n", "x\n"]
    [mvExZZ] stExBank rfl

/-- Claim C5: every record emitted by the parse passed the filter
predicate, so its date lies in the configured inclusive range. -/
theorem claim_C5 (cfg : Config) (fileLines : List String)
    (moves : List Move) (st : RegSt) (mv : Move)
    (h : MovesFile.parse cfg fileLines = .ok (moves, st)) (hm : mv ∈ moves) :
    Date.leB cfg.startDate mv.date = true ∧
      Date.leB mv.date cfg.endDate = true := by
  unfold MovesFile.parse at h
  split at h
  · exact absurd h (by simp)
  · rename_i i l r heq
    exact filter_date (parseGo_filter cfg r ⟨[], []⟩ 0 none i l moves st h
      mv hm)

theorem claim_C5_witness :
    Date.leB cfgEx.startDate mvExDesc.date = true ∧
      Date.leB mvExDesc.date cfgEx.endDate = true :=
  claim_C5 cfgEx ["2021/05/01 10.00€ CB food P\n", "desc\n"]
    [mvExDesc] ⟨[], []⟩ mvExDesc rfl (List.mem_singleton.mpr rfl)

/-- Claim C6 (corrected): with a grep pattern configured (and the status
flags off), a record passes exactly when the pattern — as given, NOT
lower-cased — occurs in the lower-cased rendered record and the date is in
range.  The match is therefore not case-insensitive in the pattern: a
pattern that differs from the text only by upper case fails to match. -/
theorem claim_C6 (cfg : Config) (mv : Move) (hg : cfg.g ≠ "")
    (hp : cfg.p = false) (hx : cfg.x = false) :
    MovesFile.filter cfg mv =
      (isSubL cfg.g.data (lowerL (Move.str mv).data) &&
        (Date.leB cfg.startDate mv.date && Date.leB mv.date cfg.endDate)) := by
  unfold MovesFile.filter
  by_cases hsub : isSubL cfg.g.data (lowerL (Move.str mv).data) = true
  · rw [if_neg (fun hq => hq.2 hsub), if_neg (by simp [hp]),
      if_neg (by simp [hx]), hsub, Bool.true_and]
  · rw [if_pos ⟨hg, hsub⟩, Bool.eq_false_iff.mpr hsub, Bool.false_and]

/-- Claim C6 counterexample: the upper-cased pattern `FOOD` rejects a
record whose rendering contains `food`, although the pattern occurs in the
text when both sides are lower-cased and the record's date is in range —
so the match is not case-insensitive as the specification claims. -/
theorem claim_C6_cex :
    MovesFile.filter cfgGrep mvEx1 = false ∧
    isSubL (lowerL cfgGrep.g.data) (lowerL (Move.str mvEx1).data) = true ∧
    Date.leB cfgGrep.startDate mvEx1.date = true ∧
    Date.leB mvEx1.date cfgGrep.endDate = true :=
  ⟨rfl, rfl, rfl, rfl⟩

theorem claim_C6_witness :
    MovesFile.filter cfgGrepLo mvEx1 =
      (isSubL cfgGrepLo.g.data (lowerL (Move.str mvEx1).data) &&
        (Date.leB cfgGrepLo.startDate mvEx1.date &&
          Date.leB mvEx1.date cfgGrepLo.endDate)) :=
  claim_C6 cfgGrepLo mvEx1 (by decide) rfl rfl

/-- Claim C7 (corrected): starting from a freshly assembled record (no
description, empty comment), the first non-blank continuation line becomes
the description and the comment ends up as the PLAIN CONCATENATION of the
space-stripped (`strip(' ')`) second and subsequent non-blank continuation
lines — each keeps its trailing newline, so they are newline-separated,
not space-joined; with fewer than two non-blank continuation lines the
comment is empty. -/
theorem claim_C7 (mv : Move) (lines : List String)
    (hd : mv.description = none) (hc : mv.comment = "") :
    (lines.foldl Move.add mv).comment =
      catS ((((lines.filter (fun l => !(pyStrip l == ""))).drop 1)).map
        pyStripSp) :=
  foldl_add_none lines mv hd hc

/-- Claim C7 counterexample: the continuation lines `a`, blank, `b`, `c`
produce the comment `"b\nc\n"` — the strip-of-spaces keeps each line's
newline — and not a space-joined text such as `"b c"` or `" b c"`. -/
theorem claim_C7_cex :
    (["a\n", "\n", "b\n", "c\n"].foldl Move.add mvEx1).comment = "b\nc\n" ∧
    ("b\nc\n" : String) ≠ "b c" ∧ ("b\nc\n" : String) ≠ " b c" :=
  ⟨rfl, by decide, by decide⟩

theorem claim_C7_witness :
    (["a\n", "\n", "b\n", "c\n"].foldl Move.add mvEx1).comment =
      catS ((((["a\n", "\n", "b\n", "c\n"].filter
        (fun l => !(pyStrip l == ""))).drop 1)).map pyStripSp) :=
  claim_C7 mvEx1 ["a\n", "\n", "b\n", "c\n"] rfl rfl

/-- Claim C8: for any successful aggregation, the income balance's stored
values sum to the total of the positive amounts, the expense balance's to
the total of the non-positive amounts, and the two signed totals
(`Balance.sum` multiplies by the balance's coefficient: income `+1`,
expense `-1`) combine as income minus expense to the net amount of all
records. -/
theorem claim_C8 (accounts : List (String × Dec))
    (kinds : List (String × String)) (moves : List Move)
    (bin bout : Balance) (accts : List (String × ℚ))
    (h : MovesFile.aggregate accounts kinds moves = .ok (bin, bout, accts)) :
    (bin.entries.map Prod.snd).sum = sumPos moves ∧
    (bout.entries.map Prod.snd).sum = sumNonpos moves ∧
    bin.coef = 1 ∧ bout.coef = -1 ∧
    bin.sum - bout.sum = sumAll moves := by
  unfold MovesFile.aggregate at h
  rcases aggGo_sums (!accounts.isEmpty) kinds moves (Balance.init true)
    (Balance.init false)
    (accounts.map (fun p0 : String × Dec => (p0.1, p0.2.toRat)))
    bin bout accts h with ⟨h1, h2, h3, h4⟩
  have e1 : (bin.entries.map Prod.snd).sum = sumPos moves := by
    simpa [Balance.init] using h1
  have e2 : (bout.entries.map Prod.snd).sum = sumNonpos moves := by
    simpa [Balance.init] using h2
  have e3 : bin.coef = 1 := by simpa [Balance.init] using h3
  have e4 : bout.coef = -1 := by simpa [Balance.init] using h4
  refine ⟨e1, e2, e3, e4, ?_⟩
  unfold Balance.sum
  rw [e1, e2, e3, e4, ← sumPos_add_sumNonpos]
  ring

theorem claim_C8_witness :
    (((⟨[("food", 10)], 1⟩ : Balance).entries.map Prod.snd).sum =
      sumPos [mvEx1, mvEx2]) ∧
    (((⟨[("food", -5)], -1⟩ : Balance).entries.map Prod.snd).sum =
      sumNonpos [mvEx1, mvEx2]) ∧
    (⟨[("food", 10)], 1⟩ : Balance).coef = 1 ∧
    (⟨[("food", -5)], -1⟩ : Balance).coef = -1 ∧
    (⟨[("food", 10)], 1⟩ : Balance).sum - (⟨[("food", -5)], -1⟩ : Balance).sum
      = sumAll [mvEx1, mvEx2] :=
  claim_C8 [] [] [mvEx1, mvEx2] ⟨[("food", 10)], 1⟩ ⟨[("food", -5)], -1⟩ []
    (by norm_num [MovesFile.aggregate, MovesFile.aggGo, mvEx1, mvEx2,
      Dec.toRat, Balance.init, Balance.bump, bumpQ])

/-- Claim C9 (corrected): rendering a record and re-parsing the first line
of the rendering recovers the five header fields exactly — PROVIDED the
record came from a physical line (no embedded newline) and its year is at
least 1000.  (For years below 1000, glibc's `%Y` prints fewer than four
digits and the re-parse fails; see the counterexample.) -/
theorem claim_C9 (m i j k : Nat) (line : String) (mv : Move)
    (h : Move.fromLine m i line = some mv) (hnn : noInnerNL line)
    (hy : 1000 ≤ mv.date.y) :
    ∃ mv', Move.fromLine j k (firstLine (Move.str mv)) = some mv' ∧
      mv'.date = mv.date ∧ mv'.amount = mv.amount ∧ mv'.kind = mv.kind ∧
      mv'.category = mv.category ∧ mv'.status = mv.status :=
  header_roundtrip h hnn hy

/-- Claim C9 counterexample: the record parsed from
`0056/01/02 10.00€ CB food P` is validly assembled, but its rendering
starts `56/01/02 ...` (glibc `%Y` does not zero-pad) and re-parsing that
header line fails (`%Y` requires exactly four digits), so the five fields
are not recovered. -/
theorem claim_C9_cex :
    Move.fromLine 1 1 "0056/01/02 10.00€ CB food P\n" = some mvExY56 ∧
    Move.fromLine 1 1 (firstLine (Move.str mvExY56)) = none :=
  ⟨rfl, rfl⟩

theorem claim_C9_witness :
    ∃ mv', Move.fromLine 2 3 (firstLine (Move.str mvEx1)) = some mv' ∧
      mv'.date = mvEx1.date ∧ mv'.amount = mvEx1.amount ∧
      mv'.kind = mvEx1.kind ∧ mv'.category = mvEx1.category ∧
      mv'.status = mvEx1.status :=
  claim_C9 1 1 2 3 "2021/05/01 10.00€ CB food P\n" mvEx1 rfl
    (by unfold noInnerNL; decide) (by decide)

/-- Claim C10: with no grep pattern, the filter's status checks compare the
UPPER-CASED status against the literal markers `P` (pending flag) and `X`
(cleared flag): the record passes the status check exactly when its
upper-cased status equals the marker, so a lowercase `p` or `x` status also
passes. -/
theorem claim_C10 (cfg : Config) (mv : Move) (hg : cfg.g = "") :
    (cfg.p = true → cfg.x = false →
      MovesFile.filter cfg mv =
        (decide (upperS mv.status = "P") &&
          (Date.leB cfg.startDate mv.date &&
            Date.leB mv.date cfg.endDate))) ∧
    (cfg.x = true → cfg.p = false →
      MovesFile.filter cfg mv =
        (decide (upperS mv.status = "X") &&
          (Date.leB cfg.startDate mv.date &&
            Date.leB mv.date cfg.endDate))) := by
  constructor
  · intro hp hx
    unfold MovesFile.filter
    rw [if_neg (fun hq => hq.1 hg)]
    by_cases hP : upperS mv.status = "P"
    · rw [if_neg (fun hq => hq.2 hP), if_neg (by simp [hx])]
      simp [hP]
    · rw [if_pos ⟨hp, hP⟩]
      simp [hP]
  · intro hx hp
    unfold MovesFile.filter
    rw [if_neg (fun hq => hq.1 hg)]
    by_cases hX : upperS mv.status = "X"
    · rw [if_neg (by simp [hp]), if_neg (fun hq => hq.2 hX)]
      simp [hX]
    · rw [if_neg (by simp [hp]), if_pos ⟨hx, hX⟩]
      simp [hX]

theorem claim_C10_witness :
    (cfgPend.p = true → cfgPend.x = false →
      MovesFile.filter cfgPend mvExLp =
        (decide (upperS mvExLp.status = "P") &&
          (Date.leB cfgPend.startDate mvExLp.date &&
            Date.leB mvExLp.date cfgPend.endDate))) ∧
    (cfgPend.x = true → cfgPend.p = false →
      MovesFile.filter cfgPend mvExLp =
        (decide (upperS mvExLp.status = "X") &&
          (Date.leB cfgPend.startDate mvExLp.date &&
            Date.leB mvExLp.date cfgPend.endDate))) :=
  claim_C10 cfgPend mvExLp rfl
